import Mathlib

/-!
Verification of the game-tree search module (`search.py`): exhaustive
minimax, alpha-beta pruned search, and stochastic rollout search.

The Python code is shallowly embedded.  Game-specific collaborators
(move generation, move application, leaf evaluation, move encoding)
are abstracted as fields of a `Game` structure, matching the external
interface of the source.  Python floats are modelled by integers
extended with the two infinities (`EV`), since the search code itself
only ever manipulates evaluator outputs, `-math.inf` and `math.inf`.
Python dictionaries (insertion-ordered, with in-place update on an
existing key) are modelled by association lists with an `upsert`
operation.
-/

/-- Search values: integers together with `-inf` and `+inf`, exactly the
values flowing through the Python search code (`-math.inf`, `math.inf`,
and finite evaluator outputs). -/
abbrev EV : Type := WithBot (WithTop ℤ)

/-- Embed a finite evaluator output into `EV`. -/
def EV.int (n : ℤ) : EV := ((n : WithTop ℤ) : EV)

/-- The move tree returned by the searches: a Python dict mapping encoded
moves to sub-trees, modelled as an insertion-ordered association list. -/
inductive MTree (K : Type) where
  | mk : List (K × MTree K) → MTree K

/-- The association list underlying a move tree. -/
def MTree.entries {K : Type} : MTree K → List (K × MTree K)
  | .mk es => es

/-- The keys of a move tree, in insertion order. -/
def MTree.keys {K : Type} (t : MTree K) : List K := t.entries.map Prod.fst

/-- Python dict assignment `d[k] = v`: replace the value in place if the
key is present, otherwise append the binding at the end. -/
def upsert {K : Type} [DecidableEq K] : List (K × MTree K) → K → MTree K → List (K × MTree K)
  | [], k, t => [(k, t)]
  | (k', t') :: rest, k, t =>
      if k' = k then (k, t) :: rest else (k', t') :: upsert rest k t

/-- Python dict lookup `d[k]`, returning `none` when the key is absent. -/
def lookupA {K : Type} [DecidableEq K] : List (K × MTree K) → K → Option (MTree K)
  | [], _ => none
  | (k', t') :: rest, k => if k' = k then some t' else lookupA rest k

/-- Python `d.update(d2)`: upsert every binding of the second dict into the
first, in order. -/
def dictUpdate {K : Type} [DecidableEq K] (d : List (K × MTree K)) (d2 : List (K × MTree K)) :
    List (K × MTree K) :=
  d2.foldl (fun acc e => upsert acc e.1 e.2) d

/-- The abstract game interface consumed by the search code: legal move
generation, move application, leaf evaluation and move encoding. -/
structure Game (B F M K : Type) where
  generateMoves : Bool → B → F → List M
  makeMove : Bool → B → M → F → Bool × B × F
  evaluate : B → ℤ
  encode : M → K

/-- The loop body of `minimax` for the maximizing side (`side == False`):
fold over the generated moves, keeping the strictly best value seen so far
and recording every explored sub-tree. -/
def mmLoopMax {M K : Type} [DecidableEq K]
    (step : M → EV × List (Option M) × MTree K) (enc : M → K) :
    List M → EV → Option M → List (Option M) → List (K × MTree K) →
      EV × List (Option M) × MTree K
  | [], value, best, mvl, tr => (value, best :: mvl, .mk tr)
  | m :: rest, value, best, mvl, tr =>
      let r := step m
      let tr' := upsert tr (enc m) r.2.2
      if value < r.1 then mmLoopMax step enc rest r.1 (some m) r.2.1 tr'
      else mmLoopMax step enc rest value best mvl tr'

/-- The loop body of `minimax` for the minimizing side (`side == True`). -/
def mmLoopMin {M K : Type} [DecidableEq K]
    (step : M → EV × List (Option M) × MTree K) (enc : M → K) :
    List M → EV → Option M → List (Option M) → List (K × MTree K) →
      EV × List (Option M) × MTree K
  | [], value, best, mvl, tr => (value, best :: mvl, .mk tr)
  | m :: rest, value, best, mvl, tr =>
      let r := step m
      let tr' := upsert tr (enc m) r.2.2
      if r.1 < value then mmLoopMin step enc rest r.1 (some m) r.2.1 tr'
      else mmLoopMin step enc rest value best mvl tr'

/-- Embedding of `minimax(side, board, flags, depth)`.  Returns
`(value, moveList, moveTree)`; the move list may contain `none`, exactly
as the Python list may contain `None` (the initial `best_move`). -/
def minimax {B F M K : Type} [DecidableEq K] (g : Game B F M K) :
    Bool → B → F → Nat → EV × List (Option M) × MTree K
  | _, board, _, 0 => (EV.int (g.evaluate board), [], .mk [])
  | side, board, flags, d + 1 =>
      let ms := g.generateMoves side board flags
      let step := fun m =>
        let nxt := g.makeMove side board m flags
        minimax g nxt.1 nxt.2.1 nxt.2.2 d
      if side = false then mmLoopMax step g.encode ms ⊥ none [] []
      else mmLoopMin step g.encode ms ⊤ none [] []

/-- The loop body of `alphabeta` for the maximizing side: like
`mmLoopMax` but threading the window `(a, b)`, breaking when
`value >= beta` and raising `alpha` on strict improvement. -/
def abLoopMax {M K : Type} [DecidableEq K]
    (step : M → EV → EV → EV × List (Option M) × MTree K) (enc : M → K) :
    List M → EV → EV → EV → Option M → List (Option M) → List (K × MTree K) →
      EV × List (Option M) × MTree K
  | [], _, _, value, best, mvl, tr => (value, best :: mvl, .mk tr)
  | m :: rest, a, b, value, best, mvl, tr =>
      let r := step m a b
      let value' := if value < r.1 then r.1 else value
      let best' := if value < r.1 then some m else best
      let mvl' := if value < r.1 then r.2.1 else mvl
      let tr' := upsert tr (enc m) r.2.2
      if b ≤ value' then (value', best' :: mvl', .mk tr')
      else abLoopMax step enc rest (if a < value' then value' else a) b value' best' mvl' tr'

/-- The loop body of `alphabeta` for the minimizing side: breaking when
`value <= alpha` and lowering `beta` on strict improvement. -/
def abLoopMin {M K : Type} [DecidableEq K]
    (step : M → EV → EV → EV × List (Option M) × MTree K) (enc : M → K) :
    List M → EV → EV → EV → Option M → List (Option M) → List (K × MTree K) →
      EV × List (Option M) × MTree K
  | [], _, _, value, best, mvl, tr => (value, best :: mvl, .mk tr)
  | m :: rest, a, b, value, best, mvl, tr =>
      let r := step m a b
      let value' := if r.1 < value then r.1 else value
      let best' := if r.1 < value then some m else best
      let mvl' := if r.1 < value then r.2.1 else mvl
      let tr' := upsert tr (enc m) r.2.2
      if value' ≤ a then (value', best' :: mvl', .mk tr')
      else abLoopMin step enc rest a (if value' < b then value' else b) value' best' mvl' tr'

/-- Embedding of `alphabeta(side, board, flags, depth, alpha, beta)`. -/
def alphabeta {B F M K : Type} [DecidableEq K] (g : Game B F M K) :
    Bool → B → F → Nat → EV → EV → EV × List (Option M) × MTree K
  | _, board, _, 0, _, _ => (EV.int (g.evaluate board), [], .mk [])
  | side, board, flags, d + 1, a, b =>
      let ms := g.generateMoves side board flags
      let step := fun m a' b' =>
        let nxt := g.makeMove side board m flags
        alphabeta g nxt.1 nxt.2.1 nxt.2.2 d a' b'
      if side = false then abLoopMax step g.encode ms a b ⊥ none [] []
      else abLoopMin step g.encode ms a b ⊤ none [] []

/-! ### Base case and the no-legal-moves behaviour (claims C2, C3) -/

/-- At depth 0 both searches return immediately with the evaluation. -/
theorem minimax_zero {B F M K : Type} [DecidableEq K] (g : Game B F M K)
    (side : Bool) (board : B) (flags : F) :
    minimax g side board flags 0 = (EV.int (g.evaluate board), [], .mk []) := by
  simp [minimax]

/-- At depth 0 `alphabeta` ignores its window and returns the evaluation. -/
theorem alphabeta_zero {B F M K : Type} [DecidableEq K] (g : Game B F M K)
    (side : Bool) (board : B) (flags : F) (a b : EV) :
    alphabeta g side board flags 0 a b = (EV.int (g.evaluate board), [], .mk []) := by
  simp [alphabeta]

/-- With no legal moves at positive depth, `minimax` falls through its loop:
the value stays at the infinite sentinel, `best_move` stays `None`, and the
returned path is the one-element list `[None]`. -/
theorem minimax_noMoves {B F M K : Type} [DecidableEq K] (g : Game B F M K)
    (side : Bool) (board : B) (flags : F) (d : Nat)
    (h : g.generateMoves side board flags = []) :
    minimax g side board flags (d + 1) = ((if side then ⊤ else ⊥), [none], .mk []) := by
  cases side <;> simp [minimax, h, mmLoopMax, mmLoopMin]

/-- With no legal moves at positive depth, `alphabeta` behaves exactly like
`minimax` (its window is never consulted). -/
theorem alphabeta_noMoves {B F M K : Type} [DecidableEq K] (g : Game B F M K)
    (side : Bool) (board : B) (flags : F) (d : Nat) (a b : EV)
    (h : g.generateMoves side board flags = []) :
    alphabeta g side board flags (d + 1) a b = ((if side then ⊤ else ⊥), [none], .mk []) := by
  cases side <;> simp [alphabeta, h, abLoopMax, abLoopMin]

/-- C2: for every side, state and flags, depth 0 returns exactly
`(evaluate(state), empty path, empty tree)` for both `minimax` and
`alphabeta`; moreover the result is unchanged under arbitrary replacement
of the move generator and the transition function, so no move is generated
and no transition is applied. -/
theorem claim2_depth_zero {B F M K : Type} [DecidableEq K] (g : Game B F M K)
    (side : Bool) (board : B) (flags : F) :
    minimax g side board flags 0 = (EV.int (g.evaluate board), [], .mk [])
    ∧ (∀ a b : EV, alphabeta g side board flags 0 a b
        = (EV.int (g.evaluate board), [], .mk []))
    ∧ (∀ gen mv, minimax { g with generateMoves := gen, makeMove := mv } side board flags 0
          = minimax g side board flags 0
        ∧ ∀ a b : EV, alphabeta { g with generateMoves := gen, makeMove := mv } side board flags 0 a b
          = alphabeta g side board flags 0 a b) := by
  refine ⟨minimax_zero g side board flags, fun a b => alphabeta_zero g side board flags a b,
    fun gen mv => ⟨?_, fun a b => ?_⟩⟩
  · rw [minimax_zero, minimax_zero]
  · rw [alphabeta_zero, alphabeta_zero]

/-- C3 (behaviour the code actually has): at depth > 0 with zero legal
moves, both procedures return the infinite sentinel of the side to move
with the path `[None]` and an empty tree — identical to each other, but
not the `(evaluate(state), [], empty)` result the specification requires:
the returned value is an infinity, never the finite evaluation, and the
path is `[None]`, not empty. -/
theorem claim3_no_moves_code_behaviour {B F M K : Type} [DecidableEq K] (g : Game B F M K)
    (side : Bool) (board : B) (flags : F) (d : Nat)
    (h : g.generateMoves side board flags = []) (hd : 0 < d) :
    minimax g side board flags d = ((if side then ⊤ else ⊥), [none], .mk [])
    ∧ (∀ a b : EV, alphabeta g side board flags d a b = minimax g side board flags d)
    ∧ (minimax g side board flags d).1 ≠ EV.int (g.evaluate board)
    ∧ (minimax g side board flags d).2.1 ≠ [] := by
  obtain ⟨d, rfl⟩ : ∃ d', d = d' + 1 := ⟨d - 1, (Nat.succ_pred_eq_of_pos hd).symm⟩
  refine ⟨minimax_noMoves g side board flags d h, fun a b => ?_, ?_, ?_⟩
  · rw [alphabeta_noMoves g side board flags d a b h, minimax_noMoves g side board flags d h]
  · rw [minimax_noMoves g side board flags d h]
    cases side <;> simp [EV.int]
  · rw [minimax_noMoves g side board flags d h]
    simp

/-- A one-board game with no legal moves at all, used as a concrete
failing input. -/
def gStuck : Game Nat Unit Nat Nat where
  generateMoves := fun _ _ _ => []
  makeMove := fun s b _ _ => (!s, b, ())
  evaluate := fun b => (b : ℤ)
  encode := fun m => m

/-- Witness for C3 at a concrete input: a position with no legal moves at
depth 1 on the maximizing side returns `(-inf, [None], empty)` rather than
the specified `(evaluate(board), [], empty) = (7, [], empty)`. -/
theorem claim3_witness :
    gStuck.generateMoves false 7 () = [] ∧ 0 < 1
    ∧ (minimax gStuck false 7 () 1 = ((⊥ : EV), [none], .mk [])
      ∧ (∀ a b : EV, alphabeta gStuck false 7 () 1 a b = minimax gStuck false 7 () 1)
      ∧ (minimax gStuck false 7 () 1).1 ≠ EV.int (gStuck.evaluate 7)
      ∧ (minimax gStuck false 7 () 1).2.1 ≠ []) := by
  refine ⟨rfl, Nat.zero_lt_one, ?_⟩
  have h := claim3_no_moves_code_behaviour gStuck false 7 () 1 rfl Nat.zero_lt_one
  simpa using h

/-! ### Helper lemmas about the minimax loops -/

/-- The running value of the maximizing loop never decreases. -/
theorem mmLoopMax_le_final {M K : Type} [DecidableEq K]
    (step : M → EV × List (Option M) × MTree K) (enc : M → K) :
    ∀ (ms : List M) (value : EV) (best : Option M) (mvl : List (Option M))
      (tr : List (K × MTree K)),
      value ≤ (mmLoopMax step enc ms value best mvl tr).1 := by
  intro ms
  induction ms with
  | nil => intro value best mvl tr; simp [mmLoopMax]
  | cons m rest ih =>
      intro value best mvl tr
      by_cases h : value < (step m).1
      · simp only [mmLoopMax, h, if_true]
        exact le_trans (le_of_lt h) (ih _ _ _ _)
      · simp only [mmLoopMax, h, if_false]
        exact ih _ _ _ _

/-- Once the maximizing loop's running value is `+inf`, nothing further
updates: the value stays `+inf` and the chosen path is frozen. -/
theorem mmLoopMax_top {M K : Type} [DecidableEq K]
    (step : M → EV × List (Option M) × MTree K) (enc : M → K) :
    ∀ (ms : List M) (best : Option M) (mvl : List (Option M)) (tr : List (K × MTree K)),
      (mmLoopMax step enc ms ⊤ best mvl tr).1 = ⊤
      ∧ (mmLoopMax step enc ms ⊤ best mvl tr).2.1 = best :: mvl := by
  intro ms
  induction ms with
  | nil => intro best mvl tr; simp [mmLoopMax]
  | cons m rest ih =>
      intro best mvl tr
      have h : ¬ ((⊤ : EV) < (step m).1) := not_top_lt
      simp only [mmLoopMax, h, if_false]
      exact ih _ _ _

/-- The running value of the minimizing loop never increases. -/
theorem mmLoopMin_final_le {M K : Type} [DecidableEq K]
    (step : M → EV × List (Option M) × MTree K) (enc : M → K) :
    ∀ (ms : List M) (value : EV) (best : Option M) (mvl : List (Option M))
      (tr : List (K × MTree K)),
      (mmLoopMin step enc ms value best mvl tr).1 ≤ value := by
  intro ms
  induction ms with
  | nil => intro value best mvl tr; simp [mmLoopMin]
  | cons m rest ih =>
      intro value best mvl tr
      by_cases h : (step m).1 < value
      · simp only [mmLoopMin, h, if_true]
        exact le_trans (ih _ _ _ _) (le_of_lt h)
      · simp only [mmLoopMin, h, if_false]
        exact ih _ _ _ _

/-- Once the minimizing loop's running value is `-inf`, nothing further
updates. -/
theorem mmLoopMin_bot {M K : Type} [DecidableEq K]
    (step : M → EV × List (Option M) × MTree K) (enc : M → K) :
    ∀ (ms : List M) (best : Option M) (mvl : List (Option M)) (tr : List (K × MTree K)),
      (mmLoopMin step enc ms ⊥ best mvl tr).1 = ⊥
      ∧ (mmLoopMin step enc ms ⊥ best mvl tr).2.1 = best :: mvl := by
  intro ms
  induction ms with
  | nil => intro best mvl tr; simp [mmLoopMin]
  | cons m rest ih =>
      intro best mvl tr
      have h : ¬ ((step m).1 < (⊥ : EV)) := not_lt_bot
      simp only [mmLoopMin, h, if_false]
      exact ih _ _ _

/-! ### Equivalence of alphabeta and minimax (claim C1) -/

/-- Fail-soft relation between an `alphabeta` result `R` over the window
`(a, b)` and the corresponding `minimax` result `E`: inside the window the
two agree on value and path; below the window `R` is an upper bound on the
exact value (exact, with matching path, when `a` is already `-inf`);
above the window `R` is a lower bound (exact when `b` is `+inf`). -/
def ZoneRel {M K : Type} (a b : EV)
    (R E : EV × List (Option M) × MTree K) : Prop :=
  (R.1 ≤ a → E.1 ≤ R.1 ∧ (a = ⊥ → R.1 = E.1 ∧ R.2.1 = E.2.1))
  ∧ (a < R.1 → R.1 < b → R.1 = E.1 ∧ R.2.1 = E.2.1)
  ∧ (b ≤ R.1 → R.1 ≤ E.1 ∧ (b = ⊤ → R.1 = E.1 ∧ R.2.1 = E.2.1))

/-- Loop invariant for the maximizing branch: as long as every child call
satisfies `ZoneRel` for any window, the alpha-beta loop and the plain
minimax loop stay in lock step, in the sense of `ZoneRel` for the loop's
original window `(a₀, b)`. -/
theorem abmmLoopMax_inv {M K : Type} [DecidableEq K]
    (stepA : M → EV → EV → EV × List (Option M) × MTree K)
    (stepM : M → EV × List (Option M) × MTree K) (enc : M → K)
    (hstep : ∀ m a' b', a' < b' → ZoneRel a' b' (stepA m a' b') (stepM m)) :
    ∀ (ms : List M) (a₀ b a value : EV) (best bestM : Option M)
      (mvl mvlM : List (Option M)) (valueM : EV) (trA trM : List (K × MTree K)),
    a₀ < b → value < b →
    ((a = a₀ ∧ value ≤ a₀ ∧ valueM ≤ value
        ∧ (a₀ = ⊥ → value = valueM ∧ best = bestM ∧ mvl = mvlM))
      ∨ (a₀ < value ∧ a = value ∧ value = valueM ∧ best = bestM ∧ mvl = mvlM)) →
    ZoneRel a₀ b (abLoopMax stepA enc ms a b value best mvl trA)
      (mmLoopMax stepM enc ms valueM bestM mvlM trM) := by
  intro ms
  induction ms with
  | nil =>
      intro a₀ b a value best bestM mvl mvlM valueM trA trM hab hvb hinv
      simp only [abLoopMax, mmLoopMax]
      refine ⟨?_, ?_, ?_⟩
      · intro _
        rcases hinv with ⟨_, _, hvm, hbot⟩ | ⟨_, _, h3, h4, h5⟩
        · exact ⟨hvm, fun hb => ⟨(hbot hb).1, by rw [(hbot hb).2.1, (hbot hb).2.2]⟩⟩
        · exact ⟨le_of_eq h3.symm, fun _ => ⟨h3, by rw [h4, h5]⟩⟩
      · intro hlt _
        rcases hinv with ⟨_, hva, _, _⟩ | ⟨_, _, h3, h4, h5⟩
        · exact absurd (lt_of_lt_of_le hlt hva) (lt_irrefl _)
        · exact ⟨h3, by rw [h4, h5]⟩
      · intro hble
        exact absurd (lt_of_le_of_lt hble hvb) (lt_irrefl _)
  | cons m rest ih =>
      intro a₀ b a value best bestM mvl mvlM valueM trA trM hab hvb hinv
      have habL : a < b := by
        rcases hinv with ⟨haeq, _, _, _⟩ | ⟨_, haeq, _, _, _⟩
        · rw [haeq]; exact hab
        · rw [haeq]; exact hvb
      have hz := hstep m a b habL
      by_cases hu : value < (stepA m a b).1
      · -- the alpha-beta loop updates its best to m
        by_cases hbr : b ≤ (stepA m a b).1
        · -- cutoff: the loop breaks right after recording m
          have hre := (hz.2.2 hbr).1
          have hum : valueM < (stepM m).1 := by
            rcases hinv with ⟨_, _, hvm, _⟩ | ⟨_, _, h3, _, _⟩
            · exact lt_of_le_of_lt hvm (lt_of_lt_of_le hu hre)
            · rw [← h3]; exact lt_of_lt_of_le hu hre
          simp only [abLoopMax, mmLoopMax]
          rw [if_pos hu, if_pos hu, if_pos hu, if_pos hbr, if_pos hum]
          refine ⟨?_, ?_, ?_⟩
          · intro hle
            exact absurd (lt_of_lt_of_le hab (le_trans hbr hle)) (lt_irrefl _)
          · intro _ hlt
            exact absurd (lt_of_le_of_lt hbr hlt) (lt_irrefl _)
          · intro _
            constructor
            · exact le_trans hre (mmLoopMax_le_final stepM enc rest _ _ _ _)
            · intro hbtop
              have hrtop : (stepA m a b).1 = ⊤ := top_le_iff.mp (hbtop ▸ hbr)
              have hetop : (stepM m).1 = ⊤ := top_le_iff.mp (hrtop ▸ hre)
              have heq := (hz.2.2 hbr).2 hbtop
              rw [hetop]
              have htt := mmLoopMax_top stepM enc rest (some m) ((stepM m).2.1)
                (upsert trM (enc m) (stepM m).2.2)
              exact ⟨by simp [htt.1, hrtop], by simp [htt.2, heq.2]⟩
        · -- no cutoff: recurse with the updated running state
          have hrb : (stepA m a b).1 < b := not_le.mp hbr
          rcases hinv with ⟨haeq, hva, hvm, hbot⟩ | ⟨hg1, hg2, hg3, hg4, hg5⟩
          · by_cases hpos : a₀ < (stepA m a b).1
            · -- the running value rises strictly above a₀: move to the locked state
              have haL : a < (stepA m a b).1 := lt_of_le_of_lt (le_of_eq haeq) hpos
              have heq := hz.2.1 haL hrb
              have hum : valueM < (stepM m).1 := by
                rw [← heq.1]; exact lt_of_le_of_lt hvm hu
              simp only [abLoopMax, mmLoopMax]
              rw [if_pos hu, if_pos hu, if_pos hu, if_neg hbr, if_pos haL, if_pos hum]
              exact ih a₀ b ((stepA m a b).1) ((stepA m a b).1) (some m) (some m)
                ((stepA m a b).2.1) ((stepM m).2.1) ((stepM m).1) _ _ hab hrb
                (Or.inr ⟨hpos, rfl, heq.1, rfl, heq.2⟩)
            · -- the running value stays at or below a₀
              have hra : (stepA m a b).1 ≤ a₀ := not_lt.mp hpos
              have hraA : (stepA m a b).1 ≤ a := hra.trans (le_of_eq haeq.symm)
              have hsub := hz.1 hraA
              have hnraise : ¬ a < (stepA m a b).1 := not_lt.mpr hraA
              have habsbot : ∀ (P : Prop), a₀ = ⊥ → P := by
                intro P hb
                exfalso
                rw [hb] at hra
                exact absurd (lt_of_lt_of_le hu hra) not_lt_bot
              simp only [abLoopMax, mmLoopMax]
              rw [if_pos hu, if_pos hu, if_pos hu, if_neg hbr, if_neg hnraise]
              by_cases hum : valueM < (stepM m).1
              · rw [if_pos hum]
                exact ih a₀ b a ((stepA m a b).1) (some m) (some m)
                  ((stepA m a b).2.1) ((stepM m).2.1) ((stepM m).1) _ _ hab hrb
                  (Or.inl ⟨haeq, hra, hsub.1, fun hb => habsbot _ hb⟩)
              · rw [if_neg hum]
                exact ih a₀ b a ((stepA m a b).1) (some m) bestM
                  ((stepA m a b).2.1) mvlM valueM _ _ hab hrb
                  (Or.inl ⟨haeq, hra, le_of_lt (lt_of_le_of_lt hvm hu),
                    fun hb => habsbot _ hb⟩)
          · -- locked state: both loops update to m together
            have haL : a < (stepA m a b).1 := lt_of_le_of_lt (le_of_eq hg2) hu
            have heq := hz.2.1 haL hrb
            have hum : valueM < (stepM m).1 := by
              rw [← heq.1, ← hg3]; exact hu
            simp only [abLoopMax, mmLoopMax]
            rw [if_pos hu, if_pos hu, if_pos hu, if_neg hbr, if_pos haL, if_pos hum]
            exact ih a₀ b ((stepA m a b).1) ((stepA m a b).1) (some m) (some m)
              ((stepA m a b).2.1) ((stepM m).2.1) ((stepM m).1) _ _ hab hrb
              (Or.inr ⟨lt_trans hg1 hu, rfl, heq.1, rfl, heq.2⟩)
      · -- the alpha-beta loop does not update
        have hra : (stepA m a b).1 ≤ value := not_lt.mp hu
        have hnbr : ¬ b ≤ value := not_le.mpr hvb
        rcases hinv with ⟨haeq, hva, hvm, hbot⟩ | ⟨hg1, hg2, hg3, hg4, hg5⟩
        · have hvaA : value ≤ a := hva.trans (le_of_eq haeq.symm)
          have hnraise : ¬ a < value := not_lt.mpr hvaA
          have hraA : (stepA m a b).1 ≤ a := le_trans hra hvaA
          have hsub := hz.1 hraA
          simp only [abLoopMax, mmLoopMax]
          rw [if_neg hu, if_neg hu, if_neg hu, if_neg hnbr, if_neg hnraise]
          by_cases hum : valueM < (stepM m).1
          · rw [if_pos hum]
            exact ih a₀ b a value best (some m) mvl ((stepM m).2.1) ((stepM m).1) _ _
              hab hvb
              (Or.inl ⟨haeq, hva, le_trans hsub.1 hra, by
                intro hb
                exfalso
                have h1 := (hbot hb).1
                rw [← h1] at hum
                exact absurd (lt_of_lt_of_le hum (le_trans hsub.1 hra)) (lt_irrefl _)⟩)
          · rw [if_neg hum]
            exact ih a₀ b a value best bestM mvl mvlM valueM _ _ hab hvb
              (Or.inl ⟨haeq, hva, hvm, hbot⟩)
        · have hnraise : ¬ a < value := by rw [hg2]; exact lt_irrefl _
          have hraA : (stepA m a b).1 ≤ a := hra.trans (le_of_eq hg2.symm)
          have hsub := hz.1 hraA
          have hnum : ¬ valueM < (stepM m).1 :=
            not_lt.mpr (le_trans hsub.1 (hra.trans (le_of_eq hg3)))
          simp only [abLoopMax, mmLoopMax]
          rw [if_neg hu, if_neg hu, if_neg hu, if_neg hnbr, if_neg hnraise, if_neg hnum]
          exact ih a₀ b a value best bestM mvl mvlM valueM _ _ hab hvb
            (Or.inr ⟨hg1, hg2, hg3, hg4, hg5⟩)

/-- Loop invariant for the minimizing branch, dual to `abmmLoopMax_inv`. -/
theorem abmmLoopMin_inv {M K : Type} [DecidableEq K]
    (stepA : M → EV → EV → EV × List (Option M) × MTree K)
    (stepM : M → EV × List (Option M) × MTree K) (enc : M → K)
    (hstep : ∀ m a' b', a' < b' → ZoneRel a' b' (stepA m a' b') (stepM m)) :
    ∀ (ms : List M) (a b₀ b value : EV) (best bestM : Option M)
      (mvl mvlM : List (Option M)) (valueM : EV) (trA trM : List (K × MTree K)),
    a < b₀ → a < value →
    ((b = b₀ ∧ b₀ ≤ value ∧ value ≤ valueM
        ∧ (b₀ = ⊤ → value = valueM ∧ best = bestM ∧ mvl = mvlM))
      ∨ (value < b₀ ∧ b = value ∧ value = valueM ∧ best = bestM ∧ mvl = mvlM)) →
    ZoneRel a b₀ (abLoopMin stepA enc ms a b value best mvl trA)
      (mmLoopMin stepM enc ms valueM bestM mvlM trM) := by
  intro ms
  induction ms with
  | nil =>
      intro a b₀ b value best bestM mvl mvlM valueM trA trM hab hav hinv
      simp only [abLoopMin, mmLoopMin]
      refine ⟨?_, ?_, ?_⟩
      · intro hle
        exact absurd (lt_of_lt_of_le hav hle) (lt_irrefl _)
      · intro _ hlt
        rcases hinv with ⟨_, hbv, _, _⟩ | ⟨_, _, h3, h4, h5⟩
        · exact absurd (lt_of_lt_of_le hlt hbv) (lt_irrefl _)
        · exact ⟨h3, by rw [h4, h5]⟩
      · intro hle
        rcases hinv with ⟨_, _, hvm, hbot⟩ | ⟨h1, _, h3, h4, h5⟩
        · exact ⟨hvm, fun hb => ⟨(hbot hb).1, by rw [(hbot hb).2.1, (hbot hb).2.2]⟩⟩
        · exact absurd (lt_of_lt_of_le h1 hle) (lt_irrefl _)
  | cons m rest ih =>
      intro a b₀ b value best bestM mvl mvlM valueM trA trM hab hav hinv
      have habL : a < b := by
        rcases hinv with ⟨hbeq, hbv, _, _⟩ | ⟨_, hbeq, _, _, _⟩
        · rw [hbeq]; exact hab
        · rw [hbeq]; exact hav
      have hz := hstep m a b habL
      by_cases hu : (stepA m a b).1 < value
      · -- the alpha-beta loop updates its best to m
        by_cases hbr : (stepA m a b).1 ≤ a
        · -- cutoff: the loop breaks right after recording m
          have hre := (hz.1 hbr).1
          have hum : (stepM m).1 < valueM := by
            rcases hinv with ⟨_, _, hvm, _⟩ | ⟨_, _, h3, _, _⟩
            · exact lt_of_le_of_lt hre (lt_of_lt_of_le hu hvm)
            · rw [← h3]; exact lt_of_le_of_lt hre hu
          simp only [abLoopMin, mmLoopMin]
          rw [if_pos hu, if_pos hu, if_pos hu, if_pos hbr, if_pos hum]
          refine ⟨?_, ?_, ?_⟩
          · intro _
            constructor
            · exact le_trans (mmLoopMin_final_le stepM enc rest _ _ _ _) hre
            · intro habot
              have hrbot : (stepA m a b).1 = ⊥ := le_bot_iff.mp (habot ▸ hbr)
              have hebot : (stepM m).1 = ⊥ := le_bot_iff.mp (hrbot ▸ hre)
              have heq := (hz.1 hbr).2 habot
              rw [hebot]
              have htt := mmLoopMin_bot stepM enc rest (some m) ((stepM m).2.1)
                (upsert trM (enc m) (stepM m).2.2)
              exact ⟨by simp [htt.1, hrbot], by simp [htt.2, heq.2]⟩
          · intro hlt _
            exact absurd (lt_of_lt_of_le hlt hbr) (lt_irrefl _)
          · intro hle
            exact absurd (lt_of_lt_of_le hab (le_trans hle hbr)) (lt_irrefl _)
        · -- no cutoff: recurse with the updated running state
          have hra : a < (stepA m a b).1 := not_le.mp hbr
          rcases hinv with ⟨hbeq, hbv, hvm, hbot⟩ | ⟨hg1, hg2, hg3, hg4, hg5⟩
          · by_cases hpos : (stepA m a b).1 < b₀
            · -- the running value drops strictly below b₀: move to the locked state
              have haL : (stepA m a b).1 < b := lt_of_lt_of_le hpos (le_of_eq hbeq.symm)
              have heq := hz.2.1 hra haL
              have hum : (stepM m).1 < valueM := by
                rw [← heq.1]; exact lt_of_lt_of_le hu hvm
              have hlower : (stepA m a b).1 < b := haL
              simp only [abLoopMin, mmLoopMin]
              rw [if_pos hu, if_pos hu, if_pos hu, if_neg hbr, if_pos hlower, if_pos hum]
              exact ih a b₀ ((stepA m a b).1) ((stepA m a b).1) (some m) (some m)
                ((stepA m a b).2.1) ((stepM m).2.1) ((stepM m).1) _ _ hab hra
                (Or.inr ⟨hpos, rfl, heq.1, rfl, heq.2⟩)
            · -- the running value stays at or above b₀
              have hrb : b₀ ≤ (stepA m a b).1 := not_lt.mp hpos
              have hrbB : b ≤ (stepA m a b).1 := (le_of_eq hbeq).trans hrb
              have hsub := hz.2.2 hrbB
              have hnlower : ¬ (stepA m a b).1 < b := not_lt.mpr hrbB
              have habstop : ∀ (P : Prop), b₀ = ⊤ → P := by
                intro P hb
                exfalso
                rw [hb] at hrb
                exact absurd (lt_of_le_of_lt hrb hu) not_top_lt
              simp only [abLoopMin, mmLoopMin]
              rw [if_pos hu, if_pos hu, if_pos hu, if_neg hbr, if_neg hnlower]
              by_cases hum : (stepM m).1 < valueM
              · rw [if_pos hum]
                exact ih a b₀ b ((stepA m a b).1) (some m) (some m)
                  ((stepA m a b).2.1) ((stepM m).2.1) ((stepM m).1) _ _ hab hra
                  (Or.inl ⟨hbeq, hrb, hsub.1, fun hb => habstop _ hb⟩)
              · rw [if_neg hum]
                exact ih a b₀ b ((stepA m a b).1) (some m) bestM
                  ((stepA m a b).2.1) mvlM valueM _ _ hab hra
                  (Or.inl ⟨hbeq, hrb, le_of_lt (lt_of_lt_of_le hu hvm),
                    fun hb => habstop _ hb⟩)
          · -- locked state: both loops update to m together
            have haL : (stepA m a b).1 < b := lt_of_lt_of_le hu (le_of_eq hg2.symm)
            have heq := hz.2.1 hra haL
            have hum : (stepM m).1 < valueM := by
              rw [← heq.1, ← hg3]; exact hu
            simp only [abLoopMin, mmLoopMin]
            rw [if_pos hu, if_pos hu, if_pos hu, if_neg hbr, if_pos haL, if_pos hum]
            exact ih a b₀ ((stepA m a b).1) ((stepA m a b).1) (some m) (some m)
              ((stepA m a b).2.1) ((stepM m).2.1) ((stepM m).1) _ _ hab hra
              (Or.inr ⟨lt_trans hu hg1, rfl, heq.1, rfl, heq.2⟩)
      · -- the alpha-beta loop does not update
        have hra : value ≤ (stepA m a b).1 := not_lt.mp hu
        have hnbr : ¬ value ≤ a := not_le.mpr hav
        rcases hinv with ⟨hbeq, hbv, hvm, hbot⟩ | ⟨hg1, hg2, hg3, hg4, hg5⟩
        · have hvbB : b ≤ value := (le_of_eq hbeq).trans hbv
          have hnlower : ¬ value < b := not_lt.mpr hvbB
          have hrbB : b ≤ (stepA m a b).1 := le_trans hvbB hra
          have hsub := hz.2.2 hrbB
          simp only [abLoopMin, mmLoopMin]
          rw [if_neg hu, if_neg hu, if_neg hu, if_neg hnbr, if_neg hnlower]
          by_cases hum : (stepM m).1 < valueM
          · rw [if_pos hum]
            exact ih a b₀ b value best (some m) mvl ((stepM m).2.1) ((stepM m).1) _ _
              hab hav
              (Or.inl ⟨hbeq, hbv, le_trans hra hsub.1, by
                intro hb
                exfalso
                have h1 := (hbot hb).1
                rw [← h1] at hum
                exact absurd (lt_of_le_of_lt (le_trans hra hsub.1) hum) (lt_irrefl _)⟩)
          · rw [if_neg hum]
            exact ih a b₀ b value best bestM mvl mvlM valueM _ _ hab hav
              (Or.inl ⟨hbeq, hbv, hvm, hbot⟩)
        · have hnlower : ¬ value < b := by rw [hg2]; exact lt_irrefl _
          have hrbB : b ≤ (stepA m a b).1 := (le_of_eq hg2).trans hra
          have hsub := hz.2.2 hrbB
          have hnum : ¬ (stepM m).1 < valueM :=
            not_lt.mpr (le_trans (le_of_eq hg3.symm) (le_trans hra hsub.1))
          simp only [abLoopMin, mmLoopMin]
          rw [if_neg hu, if_neg hu, if_neg hu, if_neg hnbr, if_neg hnlower, if_neg hnum]
          exact ih a b₀ b value best bestM mvl mvlM valueM _ _ hab hav
            (Or.inr ⟨hg1, hg2, hg3, hg4, hg5⟩)

/-- Main refinement lemma: for every window `(a, b)` with `a < b`, the
`alphabeta` call is related to the `minimax` call by `ZoneRel`. -/
theorem ab_mm_main {B F M K : Type} [DecidableEq K] (g : Game B F M K) :
    ∀ (d : Nat) (side : Bool) (board : B) (flags : F) (a b : EV), a < b →
      ZoneRel a b (alphabeta g side board flags d a b) (minimax g side board flags d) := by
  intro d
  induction d with
  | zero =>
      intro side board flags a b hab
      simp only [alphabeta, minimax]
      exact ⟨fun _ => ⟨le_refl _, fun _ => ⟨rfl, rfl⟩⟩,
        fun _ _ => ⟨rfl, rfl⟩,
        fun _ => ⟨le_refl _, fun _ => ⟨rfl, rfl⟩⟩⟩
  | succ d ihd =>
      intro side board flags a b hab
      cases side with
      | false =>
          simp only [alphabeta, minimax, if_pos rfl]
          exact abmmLoopMax_inv _ _ g.encode
            (fun m a' b' h => ihd (g.makeMove false board m flags).1
              (g.makeMove false board m flags).2.1 (g.makeMove false board m flags).2.2 a' b' h)
            (g.generateMoves false board flags) a b a ⊥ none none [] [] ⊥ [] []
            hab (lt_of_le_of_lt bot_le hab)
            (Or.inl ⟨rfl, bot_le, le_refl _, fun _ => ⟨rfl, rfl, rfl⟩⟩)
      | true =>
          have ht : ¬ (true = false) := by simp
          simp only [alphabeta, minimax, if_neg ht]
          exact abmmLoopMin_inv _ _ g.encode
            (fun m a' b' h => ihd (g.makeMove true board m flags).1
              (g.makeMove true board m flags).2.1 (g.makeMove true board m flags).2.2 a' b' h)
            (g.generateMoves true board flags) a b b ⊤ none none [] [] ⊤ [] []
            hab (lt_of_lt_of_le hab le_top)
            (Or.inl ⟨rfl, le_top, le_refl _, fun _ => ⟨rfl, rfl, rfl⟩⟩)

/-- C1: for every game interface (move generator, transition, evaluator,
encoder), every side, position, flags and depth, `alphabeta` called with
the default window `(-inf, +inf)` returns exactly the same value and the
same move path as `minimax` — the first-encountered-wins tie-break
included, since the paths agree syntactically. -/
theorem claim1_alphabeta_equals_minimax {B F M K : Type} [DecidableEq K]
    (g : Game B F M K) (side : Bool) (board : B) (flags : F) (d : Nat) :
    (alphabeta g side board flags d ⊥ ⊤).1 = (minimax g side board flags d).1
    ∧ (alphabeta g side board flags d ⊥ ⊤).2.1 = (minimax g side board flags d).2.1 := by
  have hz := ab_mm_main g d side board flags ⊥ ⊤ bot_lt_top
  rcases le_or_lt (alphabeta g side board flags d ⊥ ⊤).1 ⊥ with h | h
  · exact (hz.1 h).2 rfl
  · rcases lt_or_le (alphabeta g side board flags d ⊥ ⊤).1 ⊤ with h2 | h2
    · exact hz.2.1 h h2
    · exact (hz.2.2 h2).2 rfl

/-! ### The selection rule (claim C4) -/

/-- The final value of the maximizing loop is the fold of `max` over the
step values, started from the incoming running value. -/
theorem mmLoopMax_value {M K : Type} [DecidableEq K]
    (step : M → EV × List (Option M) × MTree K) (enc : M → K) :
    ∀ (ms : List M) (value : EV) (best : Option M) (mvl : List (Option M))
      (tr : List (K × MTree K)),
      (mmLoopMax step enc ms value best mvl tr).1
        = ms.foldl (fun v m => max v (step m).1) value := by
  intro ms
  induction ms with
  | nil => intro value best mvl tr; simp [mmLoopMax]
  | cons m rest ih =>
      intro value best mvl tr
      by_cases h : value < (step m).1
      · simp only [mmLoopMax, h, if_true, List.foldl_cons]
        rw [ih, max_eq_right (le_of_lt h)]
      · simp only [mmLoopMax, h, if_false, List.foldl_cons]
        rw [ih, max_eq_left (not_lt.mp h)]

/-- If the maximizing loop ends at its incoming running value, it never
updated, so the chosen move and path are unchanged. -/
theorem mmLoopMax_stuck {M K : Type} [DecidableEq K]
    (step : M → EV × List (Option M) × MTree K) (enc : M → K) :
    ∀ (ms : List M) (value : EV) (best : Option M) (mvl : List (Option M))
      (tr : List (K × MTree K)),
      (mmLoopMax step enc ms value best mvl tr).1 = value →
      (mmLoopMax step enc ms value best mvl tr).2.1 = best :: mvl := by
  intro ms
  induction ms with
  | nil => intro value best mvl tr _; simp [mmLoopMax]
  | cons m rest ih =>
      intro value best mvl tr hfin
      by_cases h : value < (step m).1
      · exfalso
        simp only [mmLoopMax, h, if_true] at hfin
        have := mmLoopMax_le_final step enc rest ((step m).1) (some m) ((step m).2.1)
          (upsert tr (enc m) (step m).2.2)
        rw [hfin] at this
        exact absurd (lt_of_lt_of_le h this) (lt_irrefl _)
      · simp only [mmLoopMax, h, if_false] at hfin ⊢
        exact ih _ _ _ _ hfin

/-- If the maximizing loop strictly improves on its incoming running
value, the final chosen move is the first generated move whose step value
equals the final value, and the final path is that move followed by its
recursive path. -/
theorem mmLoopMax_argmax {M K : Type} [DecidableEq K]
    (step : M → EV × List (Option M) × MTree K) (enc : M → K) :
    ∀ (ms : List M) (value : EV) (best : Option M) (mvl : List (Option M))
      (tr : List (K × MTree K)),
      value < (mmLoopMax step enc ms value best mvl tr).1 →
      ∃ mk, ms.find? (fun m => (step m).1 = (mmLoopMax step enc ms value best mvl tr).1)
          = some mk
        ∧ (mmLoopMax step enc ms value best mvl tr).2.1 = some mk :: (step mk).2.1 := by
  intro ms
  induction ms with
  | nil =>
      intro value best mvl tr h
      simp only [mmLoopMax] at h
      exact absurd h (lt_irrefl _)
  | cons m rest ih =>
      intro value best mvl tr h
      by_cases hu : value < (step m).1
      · simp only [mmLoopMax, hu, if_true] at h ⊢
        by_cases hlt : (step m).1
            < (mmLoopMax step enc rest ((step m).1) (some m) ((step m).2.1)
                (upsert tr (enc m) (step m).2.2)).1
        · obtain ⟨mk, hfind, hpath⟩ := ih ((step m).1) (some m) ((step m).2.1)
            (upsert tr (enc m) (step m).2.2) hlt
          refine ⟨mk, ?_, hpath⟩
          rw [List.find?_cons_of_neg, hfind]
          simp only [decide_eq_true_eq]
          exact fun heq => absurd hlt (not_lt.mpr (le_of_eq heq.symm))
        · have hle := mmLoopMax_le_final step enc rest ((step m).1) (some m)
            ((step m).2.1) (upsert tr (enc m) (step m).2.2)
          have heq : (mmLoopMax step enc rest ((step m).1) (some m) ((step m).2.1)
              (upsert tr (enc m) (step m).2.2)).1 = (step m).1 :=
            le_antisymm (not_lt.mp hlt) hle
          refine ⟨m, ?_, ?_⟩
          · rw [List.find?_cons_of_pos]
            simp only [decide_eq_true_eq]
            exact heq.symm
          · rw [mmLoopMax_stuck step enc rest ((step m).1) (some m) ((step m).2.1)
              (upsert tr (enc m) (step m).2.2) heq]
      · simp only [mmLoopMax, hu, if_false] at h ⊢
        obtain ⟨mk, hfind, hpath⟩ := ih value best mvl
          (upsert tr (enc m) (step m).2.2) h
        refine ⟨mk, ?_, hpath⟩
        rw [List.find?_cons_of_neg, hfind]
        simp only [decide_eq_true_eq]
        intro heq
        exact absurd (lt_of_lt_of_le h (le_of_eq heq.symm))
          (not_lt.mpr (not_lt.mp hu))

/-- Dual of `mmLoopMax_value` for the minimizing loop. -/
theorem mmLoopMin_value {M K : Type} [DecidableEq K]
    (step : M → EV × List (Option M) × MTree K) (enc : M → K) :
    ∀ (ms : List M) (value : EV) (best : Option M) (mvl : List (Option M))
      (tr : List (K × MTree K)),
      (mmLoopMin step enc ms value best mvl tr).1
        = ms.foldl (fun v m => min v (step m).1) value := by
  intro ms
  induction ms with
  | nil => intro value best mvl tr; simp [mmLoopMin]
  | cons m rest ih =>
      intro value best mvl tr
      by_cases h : (step m).1 < value
      · simp only [mmLoopMin, h, if_true, List.foldl_cons]
        rw [ih, min_eq_right (le_of_lt h)]
      · simp only [mmLoopMin, h, if_false, List.foldl_cons]
        rw [ih, min_eq_left (not_lt.mp h)]

/-- Dual of `mmLoopMax_stuck` for the minimizing loop. -/
theorem mmLoopMin_stuck {M K : Type} [DecidableEq K]
    (step : M → EV × List (Option M) × MTree K) (enc : M → K) :
    ∀ (ms : List M) (value : EV) (best : Option M) (mvl : List (Option M))
      (tr : List (K × MTree K)),
      (mmLoopMin step enc ms value best mvl tr).1 = value →
      (mmLoopMin step enc ms value best mvl tr).2.1 = best :: mvl := by
  intro ms
  induction ms with
  | nil => intro value best mvl tr _; simp [mmLoopMin]
  | cons m rest ih =>
      intro value best mvl tr hfin
      by_cases h : (step m).1 < value
      · exfalso
        simp only [mmLoopMin, h, if_true] at hfin
        have := mmLoopMin_final_le step enc rest ((step m).1) (some m) ((step m).2.1)
          (upsert tr (enc m) (step m).2.2)
        rw [hfin] at this
        exact absurd (lt_of_le_of_lt this h) (lt_irrefl _)
      · simp only [mmLoopMin, h, if_false] at hfin ⊢
        exact ih _ _ _ _ hfin

/-- Dual of `mmLoopMax_argmax` for the minimizing loop. -/
theorem mmLoopMin_argmin {M K : Type} [DecidableEq K]
    (step : M → EV × List (Option M) × MTree K) (enc : M → K) :
    ∀ (ms : List M) (value : EV) (best : Option M) (mvl : List (Option M))
      (tr : List (K × MTree K)),
      (mmLoopMin step enc ms value best mvl tr).1 < value →
      ∃ mk, ms.find? (fun m => (step m).1 = (mmLoopMin step enc ms value best mvl tr).1)
          = some mk
        ∧ (mmLoopMin step enc ms value best mvl tr).2.1 = some mk :: (step mk).2.1 := by
  intro ms
  induction ms with
  | nil =>
      intro value best mvl tr h
      simp only [mmLoopMin] at h
      exact absurd h (lt_irrefl _)
  | cons m rest ih =>
      intro value best mvl tr h
      by_cases hu : (step m).1 < value
      · simp only [mmLoopMin, hu, if_true] at h ⊢
        by_cases hlt : (mmLoopMin step enc rest ((step m).1) (some m) ((step m).2.1)
                (upsert tr (enc m) (step m).2.2)).1 < (step m).1
        · obtain ⟨mk, hfind, hpath⟩ := ih ((step m).1) (some m) ((step m).2.1)
            (upsert tr (enc m) (step m).2.2) hlt
          refine ⟨mk, ?_, hpath⟩
          rw [List.find?_cons_of_neg, hfind]
          simp only [decide_eq_true_eq]
          exact fun heq => absurd hlt (not_lt.mpr (le_of_eq heq))
        · have hle := mmLoopMin_final_le step enc rest ((step m).1) (some m)
            ((step m).2.1) (upsert tr (enc m) (step m).2.2)
          have heq : (mmLoopMin step enc rest ((step m).1) (some m) ((step m).2.1)
              (upsert tr (enc m) (step m).2.2)).1 = (step m).1 :=
            le_antisymm hle (not_lt.mp hlt)
          refine ⟨m, ?_, ?_⟩
          · rw [List.find?_cons_of_pos]
            simp only [decide_eq_true_eq]
            exact heq.symm
          · rw [mmLoopMin_stuck step enc rest ((step m).1) (some m) ((step m).2.1)
              (upsert tr (enc m) (step m).2.2) heq]
      · simp only [mmLoopMin, hu, if_false] at h ⊢
        obtain ⟨mk, hfind, hpath⟩ := ih value best mvl
          (upsert tr (enc m) (step m).2.2) h
        refine ⟨mk, ?_, hpath⟩
        rw [List.find?_cons_of_neg, hfind]
        simp only [decide_eq_true_eq]
        intro heq
        exact hu (lt_of_le_of_lt (le_of_eq heq) h)

/-- The recursive value obtained for one generated move: apply the
transition and run `minimax` one level deeper. -/
def mmChildVal {B F M K : Type} [DecidableEq K] (g : Game B F M K)
    (side : Bool) (board : B) (flags : F) (d : Nat) (m : M) : EV :=
  (minimax g (g.makeMove side board m flags).1 (g.makeMove side board m flags).2.1
    (g.makeMove side board m flags).2.2 d).1

/-- The recursive path obtained for one generated move. -/
def mmChildPath {B F M K : Type} [DecidableEq K] (g : Game B F M K)
    (side : Bool) (board : B) (flags : F) (d : Nat) (m : M) : List (Option M) :=
  (minimax g (g.makeMove side board m flags).1 (g.makeMove side board m flags).2.1
    (g.makeMove side board m flags).2.2 d).2.1

/-- The greatest recursive value over the generated moves (the sentinel
`-inf` when there are none). -/
def maxChildVal {B F M K : Type} [DecidableEq K] (g : Game B F M K)
    (side : Bool) (board : B) (flags : F) (d : Nat) : EV :=
  (g.generateMoves side board flags).foldl
    (fun v m => max v (mmChildVal g side board flags d m)) ⊥

/-- The least recursive value over the generated moves (the sentinel
`+inf` when there are none). -/
def minChildVal {B F M K : Type} [DecidableEq K] (g : Game B F M K)
    (side : Bool) (board : B) (flags : F) (d : Nat) : EV :=
  (g.generateMoves side board flags).foldl
    (fun v m => min v (mmChildVal g side board flags d m)) ⊤

/-- Shared helper: `alphabeta` with the default window agrees with
`minimax` on value and path. -/
theorem alphabeta_default_eq {B F M K : Type} [DecidableEq K]
    (g : Game B F M K) (side : Bool) (board : B) (flags : F) (d : Nat) :
    (alphabeta g side board flags d ⊥ ⊤).1 = (minimax g side board flags d).1
    ∧ (alphabeta g side board flags d ⊥ ⊤).2.1 = (minimax g side board flags d).2.1 := by
  have hz := ab_mm_main g d side board flags ⊥ ⊤ bot_lt_top
  rcases le_or_lt (alphabeta g side board flags d ⊥ ⊤).1 ⊥ with h | h
  · exact (hz.1 h).2 rfl
  · rcases lt_or_le (alphabeta g side board flags d ⊥ ⊤).1 ⊤ with h2 | h2
    · exact hz.2.1 h h2
    · exact (hz.2.2 h2).2 rfl

/-- C4 (amended): provided some move's recursive value beats the infinite
initialization sentinel (`-inf` for the maximizing side, `+inf` for the
minimizing side), the returned value is the greatest (resp. least)
recursive value and the chosen move is the first generated move attaining
it — first-encountered-wins on ties — in `minimax` and, with the default
window, equally in `alphabeta`.  (Without that proviso no move is chosen
at all: see the counterexample.) -/
theorem claim4_selection_rule {B F M K : Type} [DecidableEq K]
    (g : Game B F M K) (board : B) (flags : F) (d : Nat) :
    (⊥ < maxChildVal g false board flags d →
      (minimax g false board flags (d + 1)).1 = maxChildVal g false board flags d
      ∧ ∃ mk, (g.generateMoves false board flags).find?
            (fun m => mmChildVal g false board flags d m = maxChildVal g false board flags d)
          = some mk
        ∧ (minimax g false board flags (d + 1)).2.1
            = some mk :: mmChildPath g false board flags d mk
        ∧ (alphabeta g false board flags (d + 1) ⊥ ⊤).1 = maxChildVal g false board flags d
        ∧ (alphabeta g false board flags (d + 1) ⊥ ⊤).2.1
            = some mk :: mmChildPath g false board flags d mk)
    ∧ (minChildVal g true board flags d < ⊤ →
      (minimax g true board flags (d + 1)).1 = minChildVal g true board flags d
      ∧ ∃ mk, (g.generateMoves true board flags).find?
            (fun m => mmChildVal g true board flags d m = minChildVal g true board flags d)
          = some mk
        ∧ (minimax g true board flags (d + 1)).2.1
            = some mk :: mmChildPath g true board flags d mk
        ∧ (alphabeta g true board flags (d + 1) ⊥ ⊤).1 = minChildVal g true board flags d
        ∧ (alphabeta g true board flags (d + 1) ⊥ ⊤).2.1
            = some mk :: mmChildPath g true board flags d mk) := by
  constructor
  · intro h
    have hval : (minimax g false board flags (d + 1)).1
        = maxChildVal g false board flags d := by
      simp only [minimax, if_pos rfl, if_true]
      rw [mmLoopMax_value]
      rfl
    have hfin : ⊥ < (mmLoopMax
        (fun m => minimax g (g.makeMove false board m flags).1
          (g.makeMove false board m flags).2.1 (g.makeMove false board m flags).2.2 d)
        g.encode (g.generateMoves false board flags) ⊥ none [] []).1 := by
      rw [mmLoopMax_value]
      exact h
    obtain ⟨mk, hfind, hpath⟩ := mmLoopMax_argmax
      (fun m => minimax g (g.makeMove false board m flags).1
        (g.makeMove false board m flags).2.1 (g.makeMove false board m flags).2.2 d)
      g.encode (g.generateMoves false board flags) ⊥ none [] [] hfin
    rw [mmLoopMax_value] at hfind
    have hab := alphabeta_default_eq g false board flags (d + 1)
    refine ⟨hval, mk, hfind, ?_, ?_, ?_⟩
    · show (minimax g false board flags (d + 1)).2.1 = _
      simp only [minimax, if_pos rfl, if_true]
      exact hpath
    · rw [hab.1]; exact hval
    · rw [hab.2]
      simp only [minimax, if_pos rfl, if_true]
      exact hpath
  · intro h
    have ht : ¬ (true = false) := by simp
    have hval : (minimax g true board flags (d + 1)).1
        = minChildVal g true board flags d := by
      simp only [minimax, if_neg ht, if_false]
      rw [mmLoopMin_value]
      rfl
    have hfin : (mmLoopMin
        (fun m => minimax g (g.makeMove true board m flags).1
          (g.makeMove true board m flags).2.1 (g.makeMove true board m flags).2.2 d)
        g.encode (g.generateMoves true board flags) ⊤ none [] []).1 < ⊤ := by
      rw [mmLoopMin_value]
      exact h
    obtain ⟨mk, hfind, hpath⟩ := mmLoopMin_argmin
      (fun m => minimax g (g.makeMove true board m flags).1
        (g.makeMove true board m flags).2.1 (g.makeMove true board m flags).2.2 d)
      g.encode (g.generateMoves true board flags) ⊤ none [] [] hfin
    rw [mmLoopMin_value] at hfind
    have hab := alphabeta_default_eq g true board flags (d + 1)
    refine ⟨hval, mk, hfind, ?_, ?_, ?_⟩
    · show (minimax g true board flags (d + 1)).2.1 = _
      simp only [minimax, if_neg ht, if_false]
      exact hpath
    · rw [hab.1]; exact hval
    · rw [hab.2]
      simp only [minimax, if_neg ht, if_false]
      exact hpath

/-- A three-ply game: board 0 (max to move) has the single move 0 to
board 1; board 1 (min to move) has the single move 0 to board 2; board 2
has no moves.  At depth 3 every recursive value at the root is `-inf`. -/
def gDeep : Game Nat Unit Nat Nat where
  generateMoves := fun _ b _ => if b ≤ 1 then [0] else []
  makeMove := fun s b _ _ => (!s, b + 1, ())
  evaluate := fun b => (b : ℤ)
  encode := fun m => m

/-- C4 counterexample: at gDeep's root the maximizing side has exactly one
legal move and depth 3 > 0, so the claim says the first move initializes
the best and is chosen; but its recursive value is `-inf`, the strict
improvement test never fires, and the code chooses no move at all: the
returned path is `[None]`, not the first generated move. `alphabeta`
behaves identically. -/
theorem claim4_counterexample :
    gDeep.generateMoves false 0 () = [0]
    ∧ (minimax gDeep false 0 () 3).2.1 = [none]
    ∧ (minimax gDeep false 0 () 3).2.1.head? ≠ some (some 0)
    ∧ (alphabeta gDeep false 0 () 3 ⊥ ⊤).2.1 = [none] := by
  exact ⟨rfl, rfl, by decide, rfl⟩

/-- A two-ply game used as a concrete witness: board 0 (max) has moves
0, 1 leading to boards 10 and 11; board 10 (min) has move 0 to board 110;
board 11 (min) has moves 0, 1 to boards 120, 121; leaves evaluate to the
board number. -/
def gTwo : Game Nat Unit Nat Nat where
  generateMoves := fun _ b _ =>
    if b = 0 then [0, 1] else if b = 10 then [0] else if b = 11 then [0, 1] else []
  makeMove := fun s b m _ => (!s, 10 * b + 10 + m, ())
  evaluate := fun b => (b : ℤ)
  encode := fun m => m

/-- Witness for the amended C4 at a concrete input: at gTwo's root the
greatest recursive value is 120 > `-inf`, and the conclusion of the
selection rule holds there. -/
theorem claim4_witness :
    ((⊥ : EV) < maxChildVal gTwo false 0 () 1
      ∧ ((minimax gTwo false 0 () 2).1 = maxChildVal gTwo false 0 () 1
        ∧ ∃ mk, (gTwo.generateMoves false 0 ()).find?
              (fun m => mmChildVal gTwo false 0 () 1 m = maxChildVal gTwo false 0 () 1)
            = some mk
          ∧ (minimax gTwo false 0 () 2).2.1 = some mk :: mmChildPath gTwo false 0 () 1 mk
          ∧ (alphabeta gTwo false 0 () 2 ⊥ ⊤).1 = maxChildVal gTwo false 0 () 1
          ∧ (alphabeta gTwo false 0 () 2 ⊥ ⊤).2.1
              = some mk :: mmChildPath gTwo false 0 () 1 mk))
    ∧ (minChildVal gTwo true 10 () 1 < ⊤
      ∧ ((minimax gTwo true 10 () 2).1 = minChildVal gTwo true 10 () 1
        ∧ ∃ mk, (gTwo.generateMoves true 10 ()).find?
              (fun m => mmChildVal gTwo true 10 () 1 m = minChildVal gTwo true 10 () 1)
            = some mk
          ∧ (minimax gTwo true 10 () 2).2.1 = some mk :: mmChildPath gTwo true 10 () 1 mk
          ∧ (alphabeta gTwo true 10 () 2 ⊥ ⊤).1 = minChildVal gTwo true 10 () 1
          ∧ (alphabeta gTwo true 10 () 2 ⊥ ⊤).2.1
              = some mk :: mmChildPath gTwo true 10 () 1 mk)) :=
  ⟨⟨by decide, (claim4_selection_rule gTwo 0 () 1).1 (by decide)⟩,
   ⟨by decide, (claim4_selection_rule gTwo 10 () 1).2 (by decide)⟩⟩

/-! ### Tree recording (claim C5) -/

/-- Inserting a fresh key into a dict appends the binding at the end. -/
theorem upsert_notmem {K : Type} [DecidableEq K] :
    ∀ (tr : List (K × MTree K)) (k : K) (t : MTree K),
      k ∉ tr.map Prod.fst → upsert tr k t = tr ++ [(k, t)] := by
  intro tr
  induction tr with
  | nil => intro k t _; rfl
  | cons e rest ih =>
      intro k t h
      have hne : ¬ e.1 = k := by
        intro heq
        exact h (by simp [heq.symm])
      have hrest : k ∉ rest.map Prod.fst := by
        intro hk
        exact h (by simp [hk])
      calc upsert (e :: rest) k t = e :: upsert rest k t := by
            simp only [upsert, hne, if_false]
        _ = e :: (rest ++ [(k, t)]) := by rw [ih k t hrest]
        _ = (e :: rest) ++ [(k, t)] := rfl

/-- The maximizing minimax loop records every generated move, in order,
with the sub-tree its recursive call returned. -/
theorem mmLoopMax_tree {M K : Type} [DecidableEq K]
    (step : M → EV × List (Option M) × MTree K) (enc : M → K) :
    ∀ (ms : List M) (value : EV) (best : Option M) (mvl : List (Option M))
      (tr : List (K × MTree K)),
      (∀ m ∈ ms, enc m ∉ tr.map Prod.fst) → (ms.map enc).Nodup →
      (mmLoopMax step enc ms value best mvl tr).2.2
        = .mk (tr ++ ms.map (fun m => (enc m, (step m).2.2))) := by
  intro ms
  induction ms with
  | nil => intro value best mvl tr _ _; simp [mmLoopMax]
  | cons m rest ih =>
      intro value best mvl tr hdisj hnd
      have hfresh : enc m ∉ tr.map Prod.fst := hdisj m (by simp)
      have hup := upsert_notmem tr (enc m) ((step m).2.2) hfresh
      have hnd' : (rest.map enc).Nodup := (List.nodup_cons.mp (by simpa using hnd)).2
      have hhead : enc m ∉ rest.map enc := (List.nodup_cons.mp (by simpa using hnd)).1
      have hdisj' : ∀ m' ∈ rest, enc m' ∉ (tr ++ [(enc m, (step m).2.2)]).map Prod.fst := by
        intro m' hm'
        simp only [List.map_append, List.mem_append, List.map_cons, List.map_nil,
          List.mem_singleton, List.mem_cons]
        rintro (h | h)
        · exact hdisj m' (by simp [hm']) h
        · simp only [List.not_mem_nil, or_false] at h
          exact hhead (h ▸ List.mem_map_of_mem enc hm')
      by_cases h : value < (step m).1
      · simp only [mmLoopMax, h, if_true, hup]
        rw [ih ((step m).1) (some m) ((step m).2.1) _ hdisj' hnd']
        simp
      · simp only [mmLoopMax, h, if_false, hup]
        rw [ih value best mvl _ hdisj' hnd']
        simp

/-- The minimizing minimax loop records every generated move, in order. -/
theorem mmLoopMin_tree {M K : Type} [DecidableEq K]
    (step : M → EV × List (Option M) × MTree K) (enc : M → K) :
    ∀ (ms : List M) (value : EV) (best : Option M) (mvl : List (Option M))
      (tr : List (K × MTree K)),
      (∀ m ∈ ms, enc m ∉ tr.map Prod.fst) → (ms.map enc).Nodup →
      (mmLoopMin step enc ms value best mvl tr).2.2
        = .mk (tr ++ ms.map (fun m => (enc m, (step m).2.2))) := by
  intro ms
  induction ms with
  | nil => intro value best mvl tr _ _; simp [mmLoopMin]
  | cons m rest ih =>
      intro value best mvl tr hdisj hnd
      have hfresh : enc m ∉ tr.map Prod.fst := hdisj m (by simp)
      have hup := upsert_notmem tr (enc m) ((step m).2.2) hfresh
      have hnd' : (rest.map enc).Nodup := (List.nodup_cons.mp (by simpa using hnd)).2
      have hhead : enc m ∉ rest.map enc := (List.nodup_cons.mp (by simpa using hnd)).1
      have hdisj' : ∀ m' ∈ rest, enc m' ∉ (tr ++ [(enc m, (step m).2.2)]).map Prod.fst := by
        intro m' hm'
        simp only [List.map_append, List.mem_append, List.map_cons, List.map_nil,
          List.mem_singleton, List.mem_cons]
        rintro (h | h)
        · exact hdisj m' (by simp [hm']) h
        · simp only [List.not_mem_nil, or_false] at h
          exact hhead (h ▸ List.mem_map_of_mem enc hm')
      by_cases h : (step m).1 < value
      · simp only [mmLoopMin, h, if_true, hup]
        rw [ih ((step m).1) (some m) ((step m).2.1) _ hdisj' hnd']
        simp
      · simp only [mmLoopMin, h, if_false, hup]
        rw [ih value best mvl _ hdisj' hnd']
        simp

/-- The maximizing alpha-beta loop records exactly a prefix of the
generated moves: every explored move (the cutoff move included) is in the
tree, and when moves remain unexplored the running value has reached the
cutoff bound `beta`. -/
theorem abLoopMax_tree {M K : Type} [DecidableEq K]
    (stepA : M → EV → EV → EV × List (Option M) × MTree K) (enc : M → K) :
    ∀ (ms : List M) (a b value : EV) (best : Option M) (mvl : List (Option M))
      (tr : List (K × MTree K)),
      (∀ m ∈ ms, enc m ∉ tr.map Prod.fst) → (ms.map enc).Nodup →
      ∃ pfx sfx, ms = pfx ++ sfx
        ∧ (abLoopMax stepA enc ms a b value best mvl tr).2.2.keys
            = tr.map Prod.fst ++ pfx.map enc
        ∧ (sfx ≠ [] → b ≤ (abLoopMax stepA enc ms a b value best mvl tr).1) := by
  intro ms
  induction ms with
  | nil =>
      intro a b value best mvl tr _ _
      exact ⟨[], [], rfl, by simp [abLoopMax, MTree.keys, MTree.entries],
        fun h => absurd rfl h⟩
  | cons m rest ih =>
      intro a b value best mvl tr hdisj hnd
      have hfresh : enc m ∉ tr.map Prod.fst := hdisj m (by simp)
      have hup := upsert_notmem tr (enc m) ((stepA m a b).2.2) hfresh
      have hnd' : (rest.map enc).Nodup := (List.nodup_cons.mp (by simpa using hnd)).2
      have hhead : enc m ∉ rest.map enc := (List.nodup_cons.mp (by simpa using hnd)).1
      have hdisj' : ∀ m' ∈ rest,
          enc m' ∉ (tr ++ [(enc m, (stepA m a b).2.2)]).map Prod.fst := by
        intro m' hm'
        simp only [List.map_append, List.mem_append, List.map_cons, List.map_nil,
          List.mem_singleton, List.mem_cons]
        rintro (h | h)
        · exact hdisj m' (by simp [hm']) h
        · simp only [List.not_mem_nil, or_false] at h
          exact hhead (h ▸ List.mem_map_of_mem enc hm')
      by_cases hu : value < (stepA m a b).1
      · by_cases hbr : b ≤ (stepA m a b).1
        · refine ⟨[m], rest, rfl, ?_, fun _ => ?_⟩
          · simp only [abLoopMax]
            rw [if_pos hu, if_pos hu, if_pos hu, if_pos hbr, hup]
            simp [MTree.keys, MTree.entries]
          · simp only [abLoopMax]
            rw [if_pos hu, if_pos hu, if_pos hu, if_pos hbr]
            exact hbr
        · obtain ⟨pfx, sfx, hms, hkeys, hcond⟩ := ih
            (if a < (stepA m a b).1 then (stepA m a b).1 else a) b ((stepA m a b).1)
            (some m) ((stepA m a b).2.1) (tr ++ [(enc m, (stepA m a b).2.2)])
            hdisj' hnd'
          refine ⟨m :: pfx, sfx, by rw [hms]; rfl, ?_, ?_⟩
          · simp only [abLoopMax]
            rw [if_pos hu, if_pos hu, if_pos hu, if_neg hbr, hup, hkeys]
            simp
          · intro hne
            simp only [abLoopMax]
            rw [if_pos hu, if_pos hu, if_pos hu, if_neg hbr, hup]
            exact hcond hne
      · by_cases hbv : b ≤ value
        · refine ⟨[m], rest, rfl, ?_, fun _ => ?_⟩
          · simp only [abLoopMax]
            rw [if_neg hu, if_neg hu, if_neg hu, if_pos hbv, hup]
            simp [MTree.keys, MTree.entries]
          · simp only [abLoopMax]
            rw [if_neg hu, if_neg hu, if_neg hu, if_pos hbv]
            exact hbv
        · obtain ⟨pfx, sfx, hms, hkeys, hcond⟩ := ih
            (if a < value then value else a) b value best mvl
            (tr ++ [(enc m, (stepA m a b).2.2)]) hdisj' hnd'
          refine ⟨m :: pfx, sfx, by rw [hms]; rfl, ?_, ?_⟩
          · simp only [abLoopMax]
            rw [if_neg hu, if_neg hu, if_neg hu, if_neg hbv, hup, hkeys]
            simp
          · intro hne
            simp only [abLoopMax]
            rw [if_neg hu, if_neg hu, if_neg hu, if_neg hbv, hup]
            exact hcond hne

/-- Dual of `abLoopMax_tree` for the minimizing branch: cutoff when the
running value reaches `alpha` from above. -/
theorem abLoopMin_tree {M K : Type} [DecidableEq K]
    (stepA : M → EV → EV → EV × List (Option M) × MTree K) (enc : M → K) :
    ∀ (ms : List M) (a b value : EV) (best : Option M) (mvl : List (Option M))
      (tr : List (K × MTree K)),
      (∀ m ∈ ms, enc m ∉ tr.map Prod.fst) → (ms.map enc).Nodup →
      ∃ pfx sfx, ms = pfx ++ sfx
        ∧ (abLoopMin stepA enc ms a b value best mvl tr).2.2.keys
            = tr.map Prod.fst ++ pfx.map enc
        ∧ (sfx ≠ [] → (abLoopMin stepA enc ms a b value best mvl tr).1 ≤ a) := by
  intro ms
  induction ms with
  | nil =>
      intro a b value best mvl tr _ _
      exact ⟨[], [], rfl, by simp [abLoopMin, MTree.keys, MTree.entries],
        fun h => absurd rfl h⟩
  | cons m rest ih =>
      intro a b value best mvl tr hdisj hnd
      have hfresh : enc m ∉ tr.map Prod.fst := hdisj m (by simp)
      have hup := upsert_notmem tr (enc m) ((stepA m a b).2.2) hfresh
      have hnd' : (rest.map enc).Nodup := (List.nodup_cons.mp (by simpa using hnd)).2
      have hhead : enc m ∉ rest.map enc := (List.nodup_cons.mp (by simpa using hnd)).1
      have hdisj' : ∀ m' ∈ rest,
          enc m' ∉ (tr ++ [(enc m, (stepA m a b).2.2)]).map Prod.fst := by
        intro m' hm'
        simp only [List.map_append, List.mem_append, List.map_cons, List.map_nil,
          List.mem_singleton, List.mem_cons]
        rintro (h | h)
        · exact hdisj m' (by simp [hm']) h
        · simp only [List.not_mem_nil, or_false] at h
          exact hhead (h ▸ List.mem_map_of_mem enc hm')
      by_cases hu : (stepA m a b).1 < value
      · by_cases hbr : (stepA m a b).1 ≤ a
        · refine ⟨[m], rest, rfl, ?_, fun _ => ?_⟩
          · simp only [abLoopMin]
            rw [if_pos hu, if_pos hu, if_pos hu, if_pos hbr, hup]
            simp [MTree.keys, MTree.entries]
          · simp only [abLoopMin]
            rw [if_pos hu, if_pos hu, if_pos hu, if_pos hbr]
            exact hbr
        · obtain ⟨pfx, sfx, hms, hkeys, hcond⟩ := ih
            a (if (stepA m a b).1 < b then (stepA m a b).1 else b) ((stepA m a b).1)
            (some m) ((stepA m a b).2.1) (tr ++ [(enc m, (stepA m a b).2.2)])
            hdisj' hnd'
          refine ⟨m :: pfx, sfx, by rw [hms]; rfl, ?_, ?_⟩
          · simp only [abLoopMin]
            rw [if_pos hu, if_pos hu, if_pos hu, if_neg hbr, hup, hkeys]
            simp
          · intro hne
            simp only [abLoopMin]
            rw [if_pos hu, if_pos hu, if_pos hu, if_neg hbr, hup]
            exact hcond hne
      · by_cases hbv : value ≤ a
        · refine ⟨[m], rest, rfl, ?_, fun _ => ?_⟩
          · simp only [abLoopMin]
            rw [if_neg hu, if_neg hu, if_neg hu, if_pos hbv, hup]
            simp [MTree.keys, MTree.entries]
          · simp only [abLoopMin]
            rw [if_neg hu, if_neg hu, if_neg hu, if_pos hbv]
            exact hbv
        · obtain ⟨pfx, sfx, hms, hkeys, hcond⟩ := ih
            a (if value < b then value else b) value best mvl
            (tr ++ [(enc m, (stepA m a b).2.2)]) hdisj' hnd'
          refine ⟨m :: pfx, sfx, by rw [hms]; rfl, ?_, ?_⟩
          · simp only [abLoopMin]
            rw [if_neg hu, if_neg hu, if_neg hu, if_neg hbv, hup, hkeys]
            simp
          · intro hne
            simp only [abLoopMin]
            rw [if_neg hu, if_neg hu, if_neg hu, if_neg hbv, hup]
            exact hcond hne

/-- C5: under the external contract that encoded moves of a position are
distinct, `minimax` records every enumerated move with the sub-tree of its
recursive call, unconditionally and in generation order; `alphabeta`
records exactly a prefix of the generated moves — the cutoff move, when
one occurs, is recorded (it is the last key of the prefix) and nothing
after it is, and a proper prefix only arises when the returned value has
crossed the cutoff bound. -/
theorem claim5_tree_recording {B F M K : Type} [DecidableEq K] (g : Game B F M K)
    (side : Bool) (board : B) (flags : F) (d : Nat)
    (hnd : ((g.generateMoves side board flags).map g.encode).Nodup) :
    (minimax g side board flags (d + 1)).2.2
      = .mk ((g.generateMoves side board flags).map
          (fun m => (g.encode m, (minimax g (g.makeMove side board m flags).1
              (g.makeMove side board m flags).2.1
              (g.makeMove side board m flags).2.2 d).2.2)))
    ∧ ∀ a b : EV, ∃ pfx sfx,
        g.generateMoves side board flags = pfx ++ sfx
        ∧ (alphabeta g side board flags (d + 1) a b).2.2.keys = pfx.map g.encode
        ∧ (sfx ≠ [] →
            (side = false → b ≤ (alphabeta g side board flags (d + 1) a b).1)
            ∧ (side = true → (alphabeta g side board flags (d + 1) a b).1 ≤ a)) := by
  cases side with
  | false =>
      constructor
      · simp only [minimax, if_pos rfl, if_true]
        rw [mmLoopMax_tree _ g.encode _ ⊥ none [] [] (by simp) hnd]
        simp
      · intro a b
        simp only [alphabeta, if_pos rfl, if_true]
        obtain ⟨pfx, sfx, hms, hkeys, hcond⟩ := abLoopMax_tree
          (fun m a' b' => alphabeta g (g.makeMove false board m flags).1
            (g.makeMove false board m flags).2.1 (g.makeMove false board m flags).2.2 d a' b')
          g.encode (g.generateMoves false board flags) a b ⊥ none [] []
          (by simp) hnd
        refine ⟨pfx, sfx, hms, by simpa using hkeys,
          fun hne => ⟨fun _ => hcond hne, fun h => absurd h (by simp)⟩⟩
  | true =>
      have ht : ¬ (true = false) := by simp
      constructor
      · simp only [minimax, if_neg ht, if_false]
        rw [mmLoopMin_tree _ g.encode _ ⊤ none [] [] (by simp) hnd]
        simp
      · intro a b
        simp only [alphabeta, if_neg ht, if_false]
        obtain ⟨pfx, sfx, hms, hkeys, hcond⟩ := abLoopMin_tree
          (fun m a' b' => alphabeta g (g.makeMove true board m flags).1
            (g.makeMove true board m flags).2.1 (g.makeMove true board m flags).2.2 d a' b')
          g.encode (g.generateMoves true board flags) a b ⊤ none [] []
          (by simp) hnd
        refine ⟨pfx, sfx, hms, by simpa using hkeys,
          fun hne => ⟨fun h => absurd h (by simp), fun _ => hcond hne⟩⟩

/-- Witness for C5 at a concrete input: the two-ply game `gTwo`, max to
move at board 0, depth 2. -/
theorem claim5_witness :
    ((gTwo.generateMoves false 0 ()).map gTwo.encode).Nodup
    ∧ ((minimax gTwo false 0 () 2).2.2
        = .mk ((gTwo.generateMoves false 0 ()).map
            (fun m => (gTwo.encode m, (minimax gTwo (gTwo.makeMove false 0 m ()).1
                (gTwo.makeMove false 0 m ()).2.1
                (gTwo.makeMove false 0 m ()).2.2 1).2.2)))
      ∧ ∀ a b : EV, ∃ pfx sfx,
          gTwo.generateMoves false 0 () = pfx ++ sfx
          ∧ (alphabeta gTwo false 0 () 2 a b).2.2.keys = pfx.map gTwo.encode
          ∧ (sfx ≠ [] →
              (false = false → b ≤ (alphabeta gTwo false 0 () 2 a b).1)
              ∧ (false = true → (alphabeta gTwo false 0 () 2 a b).1 ≤ a))) :=
  ⟨by decide, claim5_tree_recording gTwo false 0 () 1 (by decide)⟩

/-! ### Monotone pruning: leaf entries (claim C6) -/

/-- Number of leaf entries of a move tree: an entry whose sub-tree is the
empty dict counts 1, any other entry contributes the count of its
sub-tree. -/
def MTree.lc {K : Type} : MTree K → Nat
  | .mk [] => 0
  | .mk ((_, .mk []) :: rest) => 1 + MTree.lc (.mk rest)
  | .mk ((_, .mk (e :: es)) :: rest) => MTree.lc (.mk (e :: es)) + MTree.lc (.mk rest)

/-- The contribution of one entry's sub-tree to the leaf count. -/
def contrib {K : Type} : MTree K → Nat
  | .mk [] => 1
  | .mk (e :: es) => MTree.lc (.mk (e :: es))

/-- Unfolding the leaf count one entry at a time. -/
theorem lc_cons {K : Type} (k : K) (s : MTree K) (rest : List (K × MTree K)) :
    (MTree.mk ((k, s) :: rest)).lc = contrib s + (MTree.mk rest).lc := by
  cases s with
  | mk es => cases es with
    | nil => simp [MTree.lc, contrib, Nat.add_comm]
    | cons e es => simp [MTree.lc, contrib]

/-- Every recorded entry contributes at least one leaf. -/
theorem contrib_pos {K : Type} : ∀ (t : MTree K), 1 ≤ contrib t
  | .mk [] => le_refl 1
  | .mk ((k, s) :: rest) => by
      have h := contrib_pos s
      have heq : contrib (MTree.mk ((k, s) :: rest)) = contrib s + (MTree.mk rest).lc := by
        simp only [contrib]
        exact lc_cons k s rest
      rw [heq]
      exact le_trans h (Nat.le_add_right _ _)

/-- The contribution of a nonempty tree is its leaf count. -/
theorem contrib_of_ne {K : Type} (t : MTree K) (h : t ≠ .mk []) : contrib t = t.lc := by
  cases t with
  | mk es => cases es with
    | nil => exact absurd rfl h
    | cons e es => simp [contrib]

/-- Appending one entry adds its contribution to the leaf count. -/
theorem lc_snoc {K : Type} (k : K) (s : MTree K) :
    ∀ (tr : List (K × MTree K)),
      (MTree.mk (tr ++ [(k, s)])).lc = (MTree.mk tr).lc + contrib s := by
  intro tr
  induction tr with
  | nil => simp [lc_cons, MTree.lc, Nat.add_comm]
  | cons e rest ih =>
      rcases e with ⟨k', s'⟩
      rw [List.cons_append, lc_cons, lc_cons, ih, Nat.add_assoc]

/-- Leaf count of a tree built entrywise from a move list. -/
theorem lc_map_sum {M K : Type} (enc : M → K) (T : M → MTree K) :
    ∀ (ms : List M),
      (MTree.mk (ms.map (fun m => (enc m, T m)))).lc
        = (ms.map (fun m => contrib (T m))).sum := by
  intro ms
  induction ms with
  | nil => simp [MTree.lc]
  | cons m rest ih => simp [lc_cons, ih]

/-- Upsert never empties a dict. -/
theorem upsert_ne_nil {K : Type} [DecidableEq K] (tr : List (K × MTree K)) (k : K)
    (t : MTree K) : upsert tr k t ≠ [] := by
  cases tr with
  | nil => simp [upsert]
  | cons e rest =>
      by_cases h : e.1 = k <;> simp [upsert, h]

/-- The maximizing minimax loop never empties its accumulated tree. -/
theorem mmLoopMax_entries_ne {M K : Type} [DecidableEq K]
    (step : M → EV × List (Option M) × MTree K) (enc : M → K) :
    ∀ (ms : List M) (value : EV) (best : Option M) (mvl : List (Option M))
      (tr : List (K × MTree K)), tr ≠ [] →
      (mmLoopMax step enc ms value best mvl tr).2.2.entries ≠ [] := by
  intro ms
  induction ms with
  | nil => intro value best mvl tr h; simpa [mmLoopMax, MTree.entries] using h
  | cons m rest ih =>
      intro value best mvl tr _
      by_cases h : value < (step m).1
      · simp only [mmLoopMax, h, if_true]
        exact ih _ _ _ _ (upsert_ne_nil tr (enc m) ((step m).2.2))
      · simp only [mmLoopMax, h, if_false]
        exact ih _ _ _ _ (upsert_ne_nil tr (enc m) ((step m).2.2))

/-- The minimizing minimax loop never empties its accumulated tree. -/
theorem mmLoopMin_entries_ne {M K : Type} [DecidableEq K]
    (step : M → EV × List (Option M) × MTree K) (enc : M → K) :
    ∀ (ms : List M) (value : EV) (best : Option M) (mvl : List (Option M))
      (tr : List (K × MTree K)), tr ≠ [] →
      (mmLoopMin step enc ms value best mvl tr).2.2.entries ≠ [] := by
  intro ms
  induction ms with
  | nil => intro value best mvl tr h; simpa [mmLoopMin, MTree.entries] using h
  | cons m rest ih =>
      intro value best mvl tr _
      by_cases h : (step m).1 < value
      · simp only [mmLoopMin, h, if_true]
        exact ih _ _ _ _ (upsert_ne_nil tr (enc m) ((step m).2.2))
      · simp only [mmLoopMin, h, if_false]
        exact ih _ _ _ _ (upsert_ne_nil tr (enc m) ((step m).2.2))

/-- If `minimax` produced an empty tree (depth 0 or no moves), so does
`alphabeta`, for any window. -/
theorem ab_tree_empty_of_mm {B F M K : Type} [DecidableEq K] (g : Game B F M K) :
    ∀ (d : Nat) (side : Bool) (board : B) (flags : F) (a bev : EV),
      (minimax g side board flags d).2.2 = .mk [] →
      (alphabeta g side board flags d a bev).2.2 = .mk [] := by
  intro d
  cases d with
  | zero => intro side board flags a bev _; simp [alphabeta]
  | succ d =>
      intro side board flags a bev hmm
      rcases hms : g.generateMoves side board flags with _ | ⟨m, rest⟩
      · cases side <;>
          simp [alphabeta, hms, abLoopMax, abLoopMin]
      · exfalso
        cases side with
        | false =>
            have hne := mmLoopMax_entries_ne
              (fun m' => minimax g (g.makeMove false board m' flags).1
                (g.makeMove false board m' flags).2.1
                (g.makeMove false board m' flags).2.2 d) g.encode
            have : (minimax g false board flags (d + 1)).2.2.entries ≠ [] := by
              simp only [minimax, if_pos rfl, if_true, hms]
              by_cases h : (⊥ : EV) < (minimax g (g.makeMove false board m flags).1
                  (g.makeMove false board m flags).2.1
                  (g.makeMove false board m flags).2.2 d).1
              · simp only [mmLoopMax, h, if_true]
                exact hne rest _ _ _ _ (upsert_ne_nil [] _ _)
              · simp only [mmLoopMax, h, if_false]
                exact hne rest _ _ _ _ (upsert_ne_nil [] _ _)
            rw [hmm] at this
            exact this rfl
        | true =>
            have hne := mmLoopMin_entries_ne
              (fun m' => minimax g (g.makeMove true board m' flags).1
                (g.makeMove true board m' flags).2.1
                (g.makeMove true board m' flags).2.2 d) g.encode
            have ht : ¬ (true = false) := by simp
            have : (minimax g true board flags (d + 1)).2.2.entries ≠ [] := by
              simp only [minimax, if_neg ht, if_false, hms]
              by_cases h : (minimax g (g.makeMove true board m flags).1
                  (g.makeMove true board m flags).2.1
                  (g.makeMove true board m flags).2.2 d).1 < (⊤ : EV)
              · simp only [mmLoopMin, h, if_true]
                exact hne rest _ _ _ _ (upsert_ne_nil [] _ _)
              · simp only [mmLoopMin, h, if_false]
                exact hne rest _ _ _ _ (upsert_ne_nil [] _ _)
            rw [hmm] at this
            exact this rfl

/-- Leaf-count bound for the maximizing alpha-beta loop: assuming each
child's recorded sub-tree contributes no more leaves than the
corresponding minimax sub-tree, the loop's tree has no more leaves than
the accumulated tree plus the minimax contributions of all moves. -/
theorem abLoopMax_lc {M K : Type} [DecidableEq K]
    (stepA : M → EV → EV → EV × List (Option M) × MTree K)
    (stepM : M → EV × List (Option M) × MTree K) (enc : M → K)
    (hc : ∀ m a' b', contrib ((stepA m a' b').2.2) ≤ contrib ((stepM m).2.2)) :
    ∀ (ms : List M) (a b value : EV) (best : Option M) (mvl : List (Option M))
      (tr : List (K × MTree K)),
      (∀ m ∈ ms, enc m ∉ tr.map Prod.fst) → (ms.map enc).Nodup →
      ((abLoopMax stepA enc ms a b value best mvl tr).2.2).lc
        ≤ (MTree.mk tr).lc + (ms.map (fun m => contrib ((stepM m).2.2))).sum := by
  intro ms
  induction ms with
  | nil =>
      intro a b value best mvl tr _ _
      simp [abLoopMax]
  | cons m rest ih =>
      intro a b value best mvl tr hdisj hnd
      have hfresh : enc m ∉ tr.map Prod.fst := hdisj m (by simp)
      have hup := upsert_notmem tr (enc m) ((stepA m a b).2.2) hfresh
      have hnd' : (rest.map enc).Nodup := (List.nodup_cons.mp (by simpa using hnd)).2
      have hhead : enc m ∉ rest.map enc := (List.nodup_cons.mp (by simpa using hnd)).1
      have hdisj' : ∀ m' ∈ rest,
          enc m' ∉ (tr ++ [(enc m, (stepA m a b).2.2)]).map Prod.fst := by
        intro m' hm'
        simp only [List.map_append, List.mem_append, List.map_cons, List.map_nil,
          List.mem_singleton, List.mem_cons]
        rintro (h | h)
        · exact hdisj m' (by simp [hm']) h
        · simp only [List.not_mem_nil, or_false] at h
          exact hhead (h ▸ List.mem_map_of_mem enc hm')
      have hlc' : (MTree.mk (tr ++ [(enc m, (stepA m a b).2.2)])).lc
          = (MTree.mk tr).lc + contrib ((stepA m a b).2.2) :=
        lc_snoc (enc m) ((stepA m a b).2.2) tr
      have hcm := hc m a b
      have hsum : (List.map (fun m' => contrib ((stepM m').2.2)) (m :: rest)).sum
          = contrib ((stepM m).2.2)
            + (List.map (fun m' => contrib ((stepM m').2.2)) rest).sum := by
        simp
      by_cases hu : value < (stepA m a b).1
      · by_cases hbr : b ≤ (stepA m a b).1
        · simp only [abLoopMax]
          rw [if_pos hu, if_pos hu, if_pos hu, if_pos hbr, hup, hsum]
          show (MTree.mk (tr ++ [(enc m, (stepA m a b).2.2)])).lc ≤ _
          rw [hlc']
          exact le_trans (Nat.add_le_add_left hcm _)
            (by rw [← Nat.add_assoc]; exact Nat.le_add_right _ _)
        · simp only [abLoopMax]
          rw [if_pos hu, if_pos hu, if_pos hu, if_neg hbr, hup, hsum]
          refine le_trans (ih _ b ((stepA m a b).1) (some m) ((stepA m a b).2.1)
            _ hdisj' hnd') ?_
          rw [hlc', ← Nat.add_assoc]
          exact Nat.add_le_add_right (Nat.add_le_add_left hcm _) _
      · by_cases hbv : b ≤ value
        · simp only [abLoopMax]
          rw [if_neg hu, if_neg hu, if_neg hu, if_pos hbv, hup, hsum]
          show (MTree.mk (tr ++ [(enc m, (stepA m a b).2.2)])).lc ≤ _
          rw [hlc']
          exact le_trans (Nat.add_le_add_left hcm _)
            (by rw [← Nat.add_assoc]; exact Nat.le_add_right _ _)
        · simp only [abLoopMax]
          rw [if_neg hu, if_neg hu, if_neg hu, if_neg hbv, hup, hsum]
          refine le_trans (ih _ b value best mvl _ hdisj' hnd') ?_
          rw [hlc', ← Nat.add_assoc]
          exact Nat.add_le_add_right (Nat.add_le_add_left hcm _) _

/-- Dual of `abLoopMax_lc` for the minimizing branch. -/
theorem abLoopMin_lc {M K : Type} [DecidableEq K]
    (stepA : M → EV → EV → EV × List (Option M) × MTree K)
    (stepM : M → EV × List (Option M) × MTree K) (enc : M → K)
    (hc : ∀ m a' b', contrib ((stepA m a' b').2.2) ≤ contrib ((stepM m).2.2)) :
    ∀ (ms : List M) (a b value : EV) (best : Option M) (mvl : List (Option M))
      (tr : List (K × MTree K)),
      (∀ m ∈ ms, enc m ∉ tr.map Prod.fst) → (ms.map enc).Nodup →
      ((abLoopMin stepA enc ms a b value best mvl tr).2.2).lc
        ≤ (MTree.mk tr).lc + (ms.map (fun m => contrib ((stepM m).2.2))).sum := by
  intro ms
  induction ms with
  | nil =>
      intro a b value best mvl tr _ _
      simp [abLoopMin]
  | cons m rest ih =>
      intro a b value best mvl tr hdisj hnd
      have hfresh : enc m ∉ tr.map Prod.fst := hdisj m (by simp)
      have hup := upsert_notmem tr (enc m) ((stepA m a b).2.2) hfresh
      have hnd' : (rest.map enc).Nodup := (List.nodup_cons.mp (by simpa using hnd)).2
      have hhead : enc m ∉ rest.map enc := (List.nodup_cons.mp (by simpa using hnd)).1
      have hdisj' : ∀ m' ∈ rest,
          enc m' ∉ (tr ++ [(enc m, (stepA m a b).2.2)]).map Prod.fst := by
        intro m' hm'
        simp only [List.map_append, List.mem_append, List.map_cons, List.map_nil,
          List.mem_singleton, List.mem_cons]
        rintro (h | h)
        · exact hdisj m' (by simp [hm']) h
        · simp only [List.not_mem_nil, or_false] at h
          exact hhead (h ▸ List.mem_map_of_mem enc hm')
      have hlc' : (MTree.mk (tr ++ [(enc m, (stepA m a b).2.2)])).lc
          = (MTree.mk tr).lc + contrib ((stepA m a b).2.2) :=
        lc_snoc (enc m) ((stepA m a b).2.2) tr
      have hcm := hc m a b
      have hsum : (List.map (fun m' => contrib ((stepM m').2.2)) (m :: rest)).sum
          = contrib ((stepM m).2.2)
            + (List.map (fun m' => contrib ((stepM m').2.2)) rest).sum := by
        simp
      by_cases hu : (stepA m a b).1 < value
      · by_cases hbr : (stepA m a b).1 ≤ a
        · simp only [abLoopMin]
          rw [if_pos hu, if_pos hu, if_pos hu, if_pos hbr, hup, hsum]
          show (MTree.mk (tr ++ [(enc m, (stepA m a b).2.2)])).lc ≤ _
          rw [hlc']
          exact le_trans (Nat.add_le_add_left hcm _)
            (by rw [← Nat.add_assoc]; exact Nat.le_add_right _ _)
        · simp only [abLoopMin]
          rw [if_pos hu, if_pos hu, if_pos hu, if_neg hbr, hup, hsum]
          refine le_trans (ih a _ ((stepA m a b).1) (some m) ((stepA m a b).2.1)
            _ hdisj' hnd') ?_
          rw [hlc', ← Nat.add_assoc]
          exact Nat.add_le_add_right (Nat.add_le_add_left hcm _) _
      · by_cases hbv : value ≤ a
        · simp only [abLoopMin]
          rw [if_neg hu, if_neg hu, if_neg hu, if_pos hbv, hup, hsum]
          show (MTree.mk (tr ++ [(enc m, (stepA m a b).2.2)])).lc ≤ _
          rw [hlc']
          exact le_trans (Nat.add_le_add_left hcm _)
            (by rw [← Nat.add_assoc]; exact Nat.le_add_right _ _)
        · simp only [abLoopMin]
          rw [if_neg hu, if_neg hu, if_neg hu, if_neg hbv, hup, hsum]
          refine le_trans (ih a _ value best mvl _ hdisj' hnd') ?_
          rw [hlc', ← Nat.add_assoc]
          exact Nat.add_le_add_right (Nat.add_le_add_left hcm _) _

/-- Monotone pruning, general form: with injective per-position move
encodings, the alpha-beta tree never has more leaf entries than the
minimax tree, for every window. -/
theorem ab_lc_le_mm {B F M K : Type} [DecidableEq K] (g : Game B F M K)
    (hG : ∀ (s : Bool) (bd : B) (f : F), ((g.generateMoves s bd f).map g.encode).Nodup) :
    ∀ (d : Nat) (side : Bool) (board : B) (flags : F) (a bev : EV),
      ((alphabeta g side board flags d a bev).2.2).lc
        ≤ ((minimax g side board flags d).2.2).lc := by
  intro d
  induction d with
  | zero =>
      intro side board flags a bev
      simp [alphabeta, minimax, MTree.lc]
  | succ d ihd =>
      intro side board flags a bev
      cases side with
      | false =>
          have hc : ∀ m a' b',
              contrib ((alphabeta g (g.makeMove false board m flags).1
                  (g.makeMove false board m flags).2.1
                  (g.makeMove false board m flags).2.2 d a' b').2.2)
              ≤ contrib ((minimax g (g.makeMove false board m flags).1
                  (g.makeMove false board m flags).2.1
                  (g.makeMove false board m flags).2.2 d).2.2) := by
            intro m a' b'
            by_cases hE : (alphabeta g (g.makeMove false board m flags).1
                (g.makeMove false board m flags).2.1
                (g.makeMove false board m flags).2.2 d a' b').2.2 = .mk []
            · rw [hE]
              exact contrib_pos _
            · have hmmE : (minimax g (g.makeMove false board m flags).1
                  (g.makeMove false board m flags).2.1
                  (g.makeMove false board m flags).2.2 d).2.2 ≠ .mk [] :=
                fun h => hE (ab_tree_empty_of_mm g d _ _ _ a' b' h)
              rw [contrib_of_ne _ hE, contrib_of_ne _ hmmE]
              exact ihd _ _ _ a' b'
          have hmm : (minimax g false board flags (d + 1)).2.2
              = .mk ((g.generateMoves false board flags).map
                  (fun m => (g.encode m, (minimax g (g.makeMove false board m flags).1
                      (g.makeMove false board m flags).2.1
                      (g.makeMove false board m flags).2.2 d).2.2))) := by
            simp only [minimax, if_pos rfl, if_true]
            rw [mmLoopMax_tree _ g.encode _ ⊥ none [] [] (by simp) (hG false board flags)]
            simp
          rw [hmm, lc_map_sum]
          have hb := abLoopMax_lc
            (fun m a' b' => alphabeta g (g.makeMove false board m flags).1
              (g.makeMove false board m flags).2.1
              (g.makeMove false board m flags).2.2 d a' b')
            (fun m => minimax g (g.makeMove false board m flags).1
              (g.makeMove false board m flags).2.1
              (g.makeMove false board m flags).2.2 d)
            g.encode hc (g.generateMoves false board flags) a bev ⊥ none [] []
            (by simp) (hG false board flags)
          simp only [alphabeta, if_pos rfl, if_true]
          simpa [MTree.lc] using hb
      | true =>
          have ht : ¬ (true = false) := by simp
          have hc : ∀ m a' b',
              contrib ((alphabeta g (g.makeMove true board m flags).1
                  (g.makeMove true board m flags).2.1
                  (g.makeMove true board m flags).2.2 d a' b').2.2)
              ≤ contrib ((minimax g (g.makeMove true board m flags).1
                  (g.makeMove true board m flags).2.1
                  (g.makeMove true board m flags).2.2 d).2.2) := by
            intro m a' b'
            by_cases hE : (alphabeta g (g.makeMove true board m flags).1
                (g.makeMove true board m flags).2.1
                (g.makeMove true board m flags).2.2 d a' b').2.2 = .mk []
            · rw [hE]
              exact contrib_pos _
            · have hmmE : (minimax g (g.makeMove true board m flags).1
                  (g.makeMove true board m flags).2.1
                  (g.makeMove true board m flags).2.2 d).2.2 ≠ .mk [] :=
                fun h => hE (ab_tree_empty_of_mm g d _ _ _ a' b' h)
              rw [contrib_of_ne _ hE, contrib_of_ne _ hmmE]
              exact ihd _ _ _ a' b'
          have hmm : (minimax g true board flags (d + 1)).2.2
              = .mk ((g.generateMoves true board flags).map
                  (fun m => (g.encode m, (minimax g (g.makeMove true board m flags).1
                      (g.makeMove true board m flags).2.1
                      (g.makeMove true board m flags).2.2 d).2.2))) := by
            simp only [minimax, if_neg ht, if_false]
            rw [mmLoopMin_tree _ g.encode _ ⊤ none [] [] (by simp) (hG true board flags)]
            simp
          rw [hmm, lc_map_sum]
          have hb := abLoopMin_lc
            (fun m a' b' => alphabeta g (g.makeMove true board m flags).1
              (g.makeMove true board m flags).2.1
              (g.makeMove true board m flags).2.2 d a' b')
            (fun m => minimax g (g.makeMove true board m flags).1
              (g.makeMove true board m flags).2.1
              (g.makeMove true board m flags).2.2 d)
            g.encode hc (g.generateMoves true board flags) a bev ⊤ none [] []
            (by simp) (hG true board flags)
          simp only [alphabeta, if_neg ht, if_false]
          simpa [MTree.lc] using hb

/-- A two-ply game engineered so that a genuine cutoff occurs: like
`gTwo`, but the leaf reached by board 11's first move evaluates to 50,
below the 110 the maximizer already has, so the minimizing node at board
11 is cut off after its first child. -/
def gCut : Game Nat Unit Nat Nat where
  generateMoves := fun _ b _ =>
    if b = 0 then [0, 1] else if b = 10 then [0] else if b = 11 then [0, 1] else []
  makeMove := fun s b m _ => (!s, 10 * b + 10 + m, ())
  evaluate := fun b => if b = 120 then (50 : ℤ) else (b : ℤ)
  encode := fun m => m

/-- C6: with injective per-position move encodings, the number of leaf
entries of the alpha-beta tree (default window) is at most that of the
minimax tree on the same input; and on the concrete input `gCut` a
genuine cutoff makes it strictly smaller (2 < 3). -/
theorem claim6_monotone_pruning {B F M K : Type} [DecidableEq K] (g : Game B F M K)
    (hG : ∀ (s : Bool) (bd : B) (f : F), ((g.generateMoves s bd f).map g.encode).Nodup)
    (side : Bool) (board : B) (flags : F) (d : Nat) :
    ((alphabeta g side board flags d ⊥ ⊤).2.2).lc
      ≤ ((minimax g side board flags d).2.2).lc
    ∧ ((alphabeta gCut false 0 () 2 ⊥ ⊤).2.2).lc
      < ((minimax gCut false 0 () 2).2.2).lc := by
  constructor
  · exact ab_lc_le_mm g hG d side board flags ⊥ ⊤
  · have h1 : (minimax gCut false 0 () 2).2.2
        = .mk [(0, .mk [(0, .mk [])]), (1, .mk [(0, .mk []), (1, .mk [])])] := rfl
    have h2 : (alphabeta gCut false 0 () 2 ⊥ ⊤).2.2
        = .mk [(0, .mk [(0, .mk [])]), (1, .mk [(0, .mk [])])] := rfl
    rw [h1, h2]
    simp [MTree.lc]

/-- Witness for C6: the encoding hypothesis holds for `gCut`, and the
inequality is then available at a concrete input. -/
theorem claim6_witness :
    (∀ (s : Bool) (bd : Nat) (f : Unit),
        ((gCut.generateMoves s bd f).map gCut.encode).Nodup)
    ∧ (((alphabeta gCut false 7 () 2 ⊥ ⊤).2.2).lc
        ≤ ((minimax gCut false 7 () 2).2.2).lc
      ∧ ((alphabeta gCut false 0 () 2 ⊥ ⊤).2.2).lc
        < ((minimax gCut false 0 () 2).2.2).lc) := by
  have hG : ∀ (s : Bool) (bd : Nat) (f : Unit),
      ((gCut.generateMoves s bd f).map gCut.encode).Nodup := by
    intro s bd f
    show ((if bd = 0 then [0, 1] else if bd = 10 then [0] else if bd = 11 then [0, 1]
        else []).map (fun m => m)).Nodup
    split_ifs <;> decide
  exact ⟨hG, claim6_monotone_pruning gCut hG false 7 () 2⟩

/-! ### Stochastic search (claims C7, C8, C9, C10) -/

/-- Runtime errors the Python `stochastic` code can raise, plus the
`invalidArgument` condition the specification requires but the code never
raises. -/
inductive PyErr where
  | indexError
  | zeroDivision
  | unboundLocal
  | keyError
  | invalidArgument
deriving DecidableEq

/-- One rollout's while-loop (`curr_depth` running from 1 to `depth`,
embedded as the remaining step count `k = depth - curr_depth`): choose a
move with the chooser (threaded through a call counter), prepend it to
the path, advance the state; at the end evaluate the leaf.  Returns the
final path (most recent move first, as the Python `path`), the leaf
evaluation, and the next counter value. -/
def rollout {B F M K : Type} (g : Game B F M K) (chooser : Nat → List M → M) :
    Nat → Nat → Bool → B → F → List M → List M × ℤ × Nat
  | 0, ctr, _, board, _, path => (path, g.evaluate board, ctr)
  | k + 1, ctr, side, board, flags, path =>
      let possible := g.generateMoves side board flags
      let mv := chooser ctr possible
      let nxt := g.makeMove side board mv flags
      rollout g chooser k (ctr + 1) nxt.1 nxt.2.1 nxt.2.2 (mv :: path)

/-- The loop inside `backtrackPath`: iterate over the path, tracking the
previously processed move (`None` at the first index, as `i == 0`). -/
def btLoop {M K : Type} [DecidableEq K] (enc : M → K) :
    List (K × MTree K) → Option M → List M → Except PyErr (List (K × MTree K))
  | dict, _, [] => .ok dict
  | dict, none, x :: rest => btLoop enc (upsert dict (enc x) (.mk [])) (some x) rest
  | dict, some p, x :: rest =>
      match lookupA dict (enc p) with
      | none => .error .keyError
      | some t => btLoop enc (upsert dict (enc x) (.mk [(enc p, t)])) (some x) rest

/-- Embedding of `backtrackPath(mTree, path)`: build the nested
single-child chain and return the dict containing only the entry of
`path[-1]`; indexing `path[-1]` on an empty path is an `IndexError`. -/
def backtrackPath {M K : Type} [DecidableEq K] (enc : M → K)
    (dict0 : List (K × MTree K)) (path : List M) :
    Except PyErr (List (K × MTree K)) :=
  match btLoop enc dict0 none path with
  | .error e => .error e
  | .ok d =>
      match path.getLast? with
      | none => .error .indexError
      | some last =>
          match lookupA d (enc last) with
          | none => .error .keyError
          | some t => .ok [(enc last, t)]

/-- The `for j in range(breadth)` loop of `stochastic` for one initial
move: each iteration replays a rollout from the post-initial-move state
`st`, appends the leaf value, and merges the backtracked chain into the
sub-tree recorded under the initial move's key.  With `depth == 0` the
while-loop body never runs: the iteration only rebinds `path` to `[]`. -/
def stochRolls {B F M K : Type} [DecidableEq K] (g : Game B F M K)
    (chooser : Nat → List M → M) (depth : Nat) (imKey : K) (st : Bool × B × F) :
    Nat → Nat → Option (List M) → List ℤ → List (K × MTree K) →
      Except PyErr (Nat × Option (List M) × List ℤ × List (K × MTree K))
  | 0, ctr, pathOpt, vals, tree => .ok (ctr, pathOpt, vals, tree)
  | j + 1, ctr, pathOpt, vals, tree =>
      if depth = 0 then
        stochRolls g chooser depth imKey st j ctr (some []) vals tree
      else
        let r := rollout g chooser (depth - 1) ctr st.1 st.2.1 st.2.2 []
        match backtrackPath g.encode [] r.1 with
        | .error e => .error e
        | .ok ct =>
            match lookupA tree imKey with
            | none => .error .keyError
            | some sub =>
                stochRolls g chooser depth imKey st j r.2.2 (some r.1)
                  (vals ++ [r.2.1]) (upsert tree imKey (.mk (dictUpdate sub.entries ct)))

/-- The outer `for i_move in initial_moves` loop of `stochastic`,
threading the chooser counter, the leaked `path` variable (unbound before
the first rollout ever assigns it — the Python `UnboundLocalError`), the
list of per-move paths, the per-move averages and the move tree. -/
def stochMoveLoop {B F M K : Type} [DecidableEq K] (g : Game B F M K)
    (chooser : Nat → List M → M) (side : Bool) (board : B) (flags : F)
    (depth breadth : Nat) :
    List M → Nat → Option (List M) → List (List M) → List ℚ → List (K × MTree K) →
      Except PyErr (Nat × Option (List M) × List (List M) × List ℚ × List (K × MTree K))
  | [], ctr, pathOpt, mvl, avgs, tree => .ok (ctr, pathOpt, mvl, avgs, tree)
  | im :: rest, ctr, pathOpt, mvl, avgs, tree =>
      let tree1 := upsert tree (g.encode im) (.mk [])
      let st := g.makeMove side board im flags
      match stochRolls g chooser depth (g.encode im) st breadth ctr pathOpt [] tree1 with
      | .error e => .error e
      | .ok (ctr', pathOpt', vals, tree') =>
          match pathOpt' with
          | none => .error .unboundLocal
          | some p =>
              let p' := im :: p
              if vals.length = 0 then .error .zeroDivision
              else
                let avg : ℚ := ((vals.foldl (· + ·) 0 : ℤ) : ℚ) / (vals.length : ℚ)
                stochMoveLoop g chooser side board flags depth breadth rest ctr'
                  (some p') (mvl ++ [p']) (avgs ++ [avg]) tree'

/-- The final minimum scan over the per-move averages (`min` starting at
`inf`, `min_idx` starting at 0, strict improvement only — the first
index attaining the minimum wins). -/
def minScanGo : List ℚ → Nat → WithTop ℚ → Nat → WithTop ℚ × Nat
  | [], _, mn, mi => (mn, mi)
  | q :: rest, i, mn, mi =>
      if (q : WithTop ℚ) < mn then minScanGo rest (i + 1) (q : WithTop ℚ) i
      else minScanGo rest (i + 1) mn mi

/-- The `min`/`min_idx` scan of `stochastic`. -/
def minScan (l : List ℚ) : WithTop ℚ × Nat := minScanGo l 0 ⊤ 0

/-- Embedding of `stochastic(side, board, flags, depth, breadth,
chooser)`.  The chooser is modelled as a function of a running call
counter, so a stateful random chooser is represented faithfully. -/
def stochastic {B F M K : Type} [DecidableEq K] (g : Game B F M K)
    (chooser : Nat → List M → M) (side : Bool) (board : B) (flags : F)
    (depth breadth : Nat) : Except PyErr (WithTop ℚ × List M × MTree K) :=
  let ms := g.generateMoves side board flags
  match stochMoveLoop g chooser side board flags depth breadth ms 0 none [] [] [] with
  | .error e => .error e
  | .ok (_, _, mvl, avgs, tree) =>
      let r := minScan avgs
      match mvl.get? r.2 with
      | none => .error .indexError
      | some p => .ok (r.1, p, .mk tree)

/-- The nested single-child chain tree of a chronological move
sequence — what `backtrackPath` reconstructs from a rollout. -/
def unwind {M K : Type} (enc : M → K) : List M → MTree K
  | [] => .mk []
  | m :: rest => .mk [(enc m, unwind enc rest)]

/-- Backtracking an empty rollout path indexes `path[-1]` on an empty
list: an `IndexError`, whatever the incoming dict. -/
theorem backtrackPath_nil {M K : Type} [DecidableEq K] (enc : M → K)
    (dict0 : List (K × MTree K)) :
    backtrackPath enc dict0 ([] : List M) = .error .indexError := rfl

/-- With `depth == 0` a rollout iteration does nothing except rebind the
leaked `path` variable to `[]`. -/
theorem stochRolls_zero {B F M K : Type} [DecidableEq K] (g : Game B F M K)
    (chooser : Nat → List M → M) (imKey : K) (st : Bool × B × F) :
    ∀ (j ctr : Nat) (po : Option (List M)) (vals : List ℤ)
      (tree : List (K × MTree K)),
      stochRolls g chooser 0 imKey st j ctr po vals tree
        = .ok (ctr, (if j = 0 then po else some []), vals, tree) := by
  intro j
  induction j with
  | zero => intro ctr po vals tree; rfl
  | succ j ih =>
      intro ctr po vals tree
      simp only [stochRolls, if_pos rfl, ih]
      cases j <;> simp

/-- With `depth == 1` the first rollout reaches the leaf immediately with
an empty path, and `backtrackPath` raises `IndexError`. -/
theorem stochRolls_one {B F M K : Type} [DecidableEq K] (g : Game B F M K)
    (chooser : Nat → List M → M) (imKey : K) (st : Bool × B × F)
    (j ctr : Nat) (po : Option (List M)) (vals : List ℤ)
    (tree : List (K × MTree K)) :
    stochRolls g chooser 1 imKey st (j + 1) ctr po vals tree
      = .error .indexError := by
  simp only [stochRolls, rollout, backtrackPath_nil]
  simp

/-- C10: with at least one legal move and breadth >= 1, `stochastic`
raises an uncaught exception for both small depths: `IndexError` at
depth 1 (indexing `path[-1]` of the empty rollout path) and
`ZeroDivisionError` at depth 0 (dividing by the empty sample count). -/
theorem claim10_small_depth_errors {B F M K : Type} [DecidableEq K] (g : Game B F M K)
    (chooser : Nat → List M → M) (side : Bool) (board : B) (flags : F)
    (breadth : Nat) (hms : g.generateMoves side board flags ≠ []) (hbr : 0 < breadth) :
    stochastic g chooser side board flags 1 breadth = .error .indexError
    ∧ stochastic g chooser side board flags 0 breadth = .error .zeroDivision := by
  obtain ⟨im, rest, hmse⟩ := List.exists_cons_of_ne_nil hms
  obtain ⟨j, rfl⟩ : ∃ j, breadth = j + 1 :=
    ⟨breadth - 1, (Nat.succ_pred_eq_of_pos hbr).symm⟩
  constructor
  · simp only [stochastic, hmse, stochMoveLoop, stochRolls_one]
  · simp only [stochastic, hmse, stochMoveLoop, stochRolls_zero]
    simp

/-- A tiny game for the stochastic witnesses: board 0 has the single move
0 to board 1; board 1 has moves 0, 1 to the leaf boards 2 and 3. -/
def gS : Game Nat Unit Nat Nat where
  generateMoves := fun _ b _ => if b = 0 then [0] else if b = 1 then [0, 1] else []
  makeMove := fun s b m _ => (!s, if b = 0 then 1 else 2 + m, ())
  evaluate := fun b => (b : ℤ)
  encode := fun m => m

/-- A deterministic stand-in for `random.choice` that consults the call
counter: the n-th call picks index n. -/
def chooserIdx : Nat → List Nat → Nat := fun n l => l.getD n 0

/-- Witness for C10 at a concrete input. -/
theorem claim10_witness :
    gS.generateMoves false 0 () ≠ [] ∧ 0 < 2
    ∧ (stochastic gS chooserIdx false 0 () 1 2 = .error .indexError
      ∧ stochastic gS chooserIdx false 0 () 0 2 = .error .zeroDivision) :=
  ⟨by decide, by decide,
    claim10_small_depth_errors gS chooserIdx false 0 () 2 (by decide) (by decide)⟩

/-- Option-propagating variant of `mmLoopMax`, for the fuel-bounded
semantics: a child that runs out of fuel aborts the loop. -/
def mmLoopMaxO {M K : Type} [DecidableEq K]
    (step : M → Option (EV × List (Option M) × MTree K)) (enc : M → K) :
    List M → EV → Option M → List (Option M) → List (K × MTree K) →
      Option (EV × List (Option M) × MTree K)
  | [], value, best, mvl, tr => some (value, best :: mvl, .mk tr)
  | m :: rest, value, best, mvl, tr =>
      match step m with
      | none => none
      | some r =>
          let tr' := upsert tr (enc m) r.2.2
          if value < r.1 then mmLoopMaxO step enc rest r.1 (some m) r.2.1 tr'
          else mmLoopMaxO step enc rest value best mvl tr'

/-- Option-propagating variant of `mmLoopMin`. -/
def mmLoopMinO {M K : Type} [DecidableEq K]
    (step : M → Option (EV × List (Option M) × MTree K)) (enc : M → K) :
    List M → EV → Option M → List (Option M) → List (K × MTree K) →
      Option (EV × List (Option M) × MTree K)
  | [], value, best, mvl, tr => some (value, best :: mvl, .mk tr)
  | m :: rest, value, best, mvl, tr =>
      match step m with
      | none => none
      | some r =>
          let tr' := upsert tr (enc m) r.2.2
          if r.1 < value then mmLoopMinO step enc rest r.1 (some m) r.2.1 tr'
          else mmLoopMinO step enc rest value best mvl tr'

/-- Fuel-bounded semantics of `minimax` with a Python `int` depth: the
code checks only `depth == 0`, so `none` means the recursion has not
terminated within the given fuel. -/
def minimaxFuel {B F M K : Type} [DecidableEq K] (g : Game B F M K) :
    Nat → Bool → B → F → Int → Option (EV × List (Option M) × MTree K)
  | 0, _, _, _, _ => none
  | fuel + 1, side, board, flags, depth =>
      if depth = 0 then some (EV.int (g.evaluate board), [], .mk [])
      else
        let ms := g.generateMoves side board flags
        let step := fun m =>
          let nxt := g.makeMove side board m flags
          minimaxFuel g fuel nxt.1 nxt.2.1 nxt.2.2 (depth - 1)
        if side = false then mmLoopMaxO step g.encode ms ⊥ none [] []
        else mmLoopMinO step g.encode ms ⊤ none [] []

/-- Option-propagating variant of `abLoopMax`. -/
def abLoopMaxO {M K : Type} [DecidableEq K]
    (step : M → EV → EV → Option (EV × List (Option M) × MTree K)) (enc : M → K) :
    List M → EV → EV → EV → Option M → List (Option M) → List (K × MTree K) →
      Option (EV × List (Option M) × MTree K)
  | [], _, _, value, best, mvl, tr => some (value, best :: mvl, .mk tr)
  | m :: rest, a, b, value, best, mvl, tr =>
      match step m a b with
      | none => none
      | some r =>
          let value' := if value < r.1 then r.1 else value
          let best' := if value < r.1 then some m else best
          let mvl' := if value < r.1 then r.2.1 else mvl
          let tr' := upsert tr (enc m) r.2.2
          if b ≤ value' then some (value', best' :: mvl', .mk tr')
          else abLoopMaxO step enc rest (if a < value' then value' else a) b value' best' mvl' tr'

/-- Option-propagating variant of `abLoopMin`. -/
def abLoopMinO {M K : Type} [DecidableEq K]
    (step : M → EV → EV → Option (EV × List (Option M) × MTree K)) (enc : M → K) :
    List M → EV → EV → EV → Option M → List (Option M) → List (K × MTree K) →
      Option (EV × List (Option M) × MTree K)
  | [], _, _, value, best, mvl, tr => some (value, best :: mvl, .mk tr)
  | m :: rest, a, b, value, best, mvl, tr =>
      match step m a b with
      | none => none
      | some r =>
          let value' := if r.1 < value then r.1 else value
          let best' := if r.1 < value then some m else best
          let mvl' := if r.1 < value then r.2.1 else mvl
          let tr' := upsert tr (enc m) r.2.2
          if value' ≤ a then some (value', best' :: mvl', .mk tr')
          else abLoopMinO step enc rest a (if value' < b then value' else b) value' best' mvl' tr'

/-- Fuel-bounded semantics of `alphabeta` with a Python `int` depth. -/
def alphabetaFuel {B F M K : Type} [DecidableEq K] (g : Game B F M K) :
    Nat → Bool → B → F → Int → EV → EV → Option (EV × List (Option M) × MTree K)
  | 0, _, _, _, _, _, _ => none
  | fuel + 1, side, board, flags, depth, a, b =>
      if depth = 0 then some (EV.int (g.evaluate board), [], .mk [])
      else
        let ms := g.generateMoves side board flags
        let step := fun m a' b' =>
          let nxt := g.makeMove side board m flags
          alphabetaFuel g fuel nxt.1 nxt.2.1 nxt.2.2 (depth - 1) a' b'
        if side = false then abLoopMaxO step g.encode ms a b ⊥ none [] []
        else abLoopMinO step g.encode ms a b ⊤ none [] []

/-- C8 (amended): none of the search procedures validates its arguments.
With a negative depth, `minimax` and `alphabeta` recurse without
terminating whenever every position has a legal move — the fuel-bounded
semantics yields no result for any fuel, and in particular never an
invalid-argument condition.  `stochastic` with breadth 0 enters the
search (the move generator runs, the first move is recorded) and then
fails with `UnboundLocalError` on the never-assigned rollout path — also
not an invalid-argument condition. -/
theorem claim8_no_validation {B F M K : Type} [DecidableEq K] (g : Game B F M K)
    (chooser : Nat → List M → M) (side : Bool) (board : B) (flags : F)
    (hmoves : ∀ (s : Bool) (bd : B) (f : F), g.generateMoves s bd f ≠ []) :
    (∀ (fuel : Nat) (s : Bool) (bd : B) (f : F) (depth : Int), depth < 0 →
        minimaxFuel g fuel s bd f depth = none
        ∧ ∀ a b : EV, alphabetaFuel g fuel s bd f depth a b = none)
    ∧ (∀ depth : Nat, stochastic g chooser side board flags depth 0 = .error .unboundLocal)
    ∧ (∀ depth : Nat,
        stochastic g chooser side board flags depth 0 ≠ .error .invalidArgument) := by
  have hrec : ∀ (fuel : Nat) (s : Bool) (bd : B) (f : F) (depth : Int), depth < 0 →
      minimaxFuel g fuel s bd f depth = none
      ∧ ∀ a b : EV, alphabetaFuel g fuel s bd f depth a b = none := by
    intro fuel
    induction fuel with
    | zero => intro s bd f depth _; exact ⟨rfl, fun _ _ => rfl⟩
    | succ fuel ih =>
        intro s bd f depth hneg
        have hne : ¬ (depth = 0) := by omega
        have hneg' : depth - 1 < 0 := by omega
        obtain ⟨im, rest, hms⟩ := List.exists_cons_of_ne_nil (hmoves s bd f)
        have hstep := (ih (g.makeMove s bd im f).1 (g.makeMove s bd im f).2.1
          (g.makeMove s bd im f).2.2 (depth - 1) hneg').1
        have hstepAB := (ih (g.makeMove s bd im f).1 (g.makeMove s bd im f).2.1
          (g.makeMove s bd im f).2.2 (depth - 1) hneg').2
        constructor
        · cases s with
          | false =>
              simp only [minimaxFuel, hne, if_false, hms, if_pos rfl, if_true]
              simp only [mmLoopMaxO, hstep]
          | true =>
              have ht : ¬ (true = false) := by simp
              simp only [minimaxFuel, hne, if_false, hms, if_neg ht]
              simp only [mmLoopMinO, hstep]
        · intro a b
          cases s with
          | false =>
              simp only [alphabetaFuel, hne, if_false, hms, if_pos rfl, if_true]
              simp only [abLoopMaxO, hstepAB a b]
          | true =>
              have ht : ¬ (true = false) := by simp
              simp only [alphabetaFuel, hne, if_false, hms, if_neg ht]
              simp only [abLoopMinO, hstepAB a b]
  have hbr0 : ∀ depth : Nat,
      stochastic g chooser side board flags depth 0 = .error .unboundLocal := by
    intro depth
    obtain ⟨im, rest, hms⟩ := List.exists_cons_of_ne_nil (hmoves side board flags)
    simp only [stochastic, hms, stochMoveLoop, stochRolls]
  refine ⟨hrec, hbr0, ?_⟩
  intro depth h
  rw [hbr0 depth] at h
  exact PyErr.noConfusion (Except.error.inj h)

/-- A game in which every position has the single self-loop move 0: the
infinite-recursion scenario for a negative depth. -/
def gLoop : Game Nat Unit Nat Nat where
  generateMoves := fun _ _ _ => [0]
  makeMove := fun s b _ _ => (!s, b, ())
  evaluate := fun b => (b : ℤ)
  encode := fun m => m

/-- C8 counterexample: at a concrete input, `stochastic` with breadth 0
does search work (the error arises inside the per-move loop) and raises
`UnboundLocalError`, not the invalid-argument condition the claim
requires; and `minimax` at depth -1 never returns within any concrete
fuel instead of failing fast. -/
theorem claim8_counterexample :
    stochastic gLoop chooserIdx false 0 () 5 0 = .error .unboundLocal
    ∧ Except.error (ε := PyErr) (α := WithTop ℚ × List Nat × MTree Nat)
        PyErr.unboundLocal ≠ .error .invalidArgument
    ∧ minimaxFuel gLoop 20 false 0 () (-1) = none := by
  refine ⟨rfl, ?_, rfl⟩
  intro h
  exact PyErr.noConfusion (Except.error.inj h)

/-- Witness for the amended C8 at a concrete game. -/
theorem claim8_witness :
    (∀ (s : Bool) (bd : Nat) (f : Unit), gLoop.generateMoves s bd f ≠ [])
    ∧ ((∀ (fuel : Nat) (s : Bool) (bd : Nat) (f : Unit) (depth : Int), depth < 0 →
          minimaxFuel gLoop fuel s bd f depth = none
          ∧ ∀ a b : EV, alphabetaFuel gLoop fuel s bd f depth a b = none)
      ∧ (∀ depth : Nat,
          stochastic gLoop chooserIdx false 0 () depth 0 = .error .unboundLocal)
      ∧ (∀ depth : Nat,
          stochastic gLoop chooserIdx false 0 () depth 0 ≠ .error .invalidArgument)) := by
  have hm : ∀ (s : Bool) (bd : Nat) (f : Unit), gLoop.generateMoves s bd f ≠ [] := by
    intro s bd f
    simp [gLoop]
  exact ⟨hm, claim8_no_validation gLoop chooserIdx false 0 () hm⟩

/-! ### Rollout and backtracking structure (claims C7, C9) -/

/-- Each rollout step consumes exactly one chooser call. -/
theorem rollout_ctr {B F M K : Type} (g : Game B F M K) (chooser : Nat → List M → M) :
    ∀ (k ctr : Nat) (s : Bool) (b : B) (f : F) (p : List M),
      (rollout g chooser k ctr s b f p).2.2 = ctr + k := by
  intro k
  induction k with
  | zero => intro ctr s b f p; simp [rollout]
  | succ k ih =>
      intro ctr s b f p
      simp only [rollout]
      rw [ih]
      omega

/-- A rollout of `k` steps extends the path by `k` moves. -/
theorem rollout_path_len {B F M K : Type} (g : Game B F M K)
    (chooser : Nat → List M → M) :
    ∀ (k ctr : Nat) (s : Bool) (b : B) (f : F) (p : List M),
      (rollout g chooser k ctr s b f p).1.length = p.length + k := by
  intro k
  induction k with
  | zero => intro ctr s b f p; simp [rollout]
  | succ k ih =>
      intro ctr s b f p
      simp only [rollout]
      rw [ih]
      simp
      omega

/-- Looking up a key just upserted yields the new value. -/
theorem lookupA_upsert_self {K : Type} [DecidableEq K] :
    ∀ (d : List (K × MTree K)) (k : K) (t : MTree K),
      lookupA (upsert d k t) k = some t := by
  intro d
  induction d with
  | nil => intro k t; simp [upsert, lookupA]
  | cons e rest ih =>
      intro k t
      by_cases h : e.1 = k
      · simp [upsert, h, lookupA]
      · simp only [upsert, h, if_false]
        simp only [lookupA, h, if_false]
        exact ih k t

/-- Upserting one key leaves lookups of other keys unchanged. -/
theorem lookupA_upsert_other {K : Type} [DecidableEq K] :
    ∀ (d : List (K × MTree K)) (k k' : K) (t : MTree K), k ≠ k' →
      lookupA (upsert d k t) k' = lookupA d k' := by
  intro d
  induction d with
  | nil => intro k k' t h; simp [upsert, lookupA, h]
  | cons e rest ih =>
      intro k k' t h
      by_cases he : e.1 = k
      · simp only [upsert, he, if_pos rfl]
        simp only [lookupA, h, if_false, he]
      · simp only [upsert, he, if_false]
        simp only [lookupA]
        by_cases he' : e.1 = k'
        · simp [he']
        · simp only [he', if_false]
          exact ih k k' t h

/-- The `backtrackPath` loop builds, under the key of the last processed
move, the single-child chain of everything processed so far. -/
theorem btLoop_unwind {M K : Type} [DecidableEq K] (enc : M → K) :
    ∀ (rest : List M) (dict : List (K × MTree K)) (prev : M) (acc : List M),
      lookupA dict (enc prev) = some (unwind enc acc) →
      ∃ d', btLoop enc dict (some prev) rest = .ok d'
        ∧ ∃ L, (prev :: rest).getLast? = some L
          ∧ lookupA d' (enc L) = some (unwind enc ((prev :: rest).reverse.tail ++ acc)) := by
  intro rest
  induction rest with
  | nil =>
      intro dict prev acc hl
      exact ⟨dict, rfl, prev, rfl, by simpa using hl⟩
  | cons x rest ih =>
      intro dict prev acc hl
      have hstep : btLoop enc dict (some prev) (x :: rest)
          = btLoop enc (upsert dict (enc x) (.mk [(enc prev, unwind enc acc)]))
              (some x) rest := by
        simp only [btLoop, hl]
      have hl' : lookupA (upsert dict (enc x) (.mk [(enc prev, unwind enc acc)])) (enc x)
          = some (unwind enc (prev :: acc)) := by
        rw [lookupA_upsert_self]
        rfl
      obtain ⟨d', hok, L, hlast, hlook⟩ := ih _ x (prev :: acc) hl'
      refine ⟨d', by rw [hstep]; exact hok, L, ?_, ?_⟩
      · rw [← hlast]
        rfl
      · rw [hlook]
        congr 2
        have hne : (x :: rest).reverse ≠ [] := by simp
        obtain ⟨h0, t0, hrev⟩ := List.exists_cons_of_ne_nil hne
        calc (x :: rest).reverse.tail ++ prev :: acc
            = (x :: rest).reverse.tail ++ [prev] ++ acc := by simp
          _ = ((x :: rest).reverse ++ [prev]).tail ++ acc := by rw [hrev]; simp
          _ = (prev :: x :: rest).reverse.tail ++ acc := by
              simp [List.reverse_cons, List.append_assoc]

/-- `backtrackPath` on a nonempty rollout path (most recent move first)
reconstructs exactly the nested single-child chain of the chronological
move sequence. -/
theorem backtrackPath_unwind {M K : Type} [DecidableEq K] (enc : M → K) :
    ∀ (p : List M), p ≠ [] →
      backtrackPath enc [] p = .ok ((unwind enc p.reverse).entries) := by
  intro p hp
  obtain ⟨x, rest, rfl⟩ := List.exists_cons_of_ne_nil hp
  have hl0 : lookupA (upsert ([] : List (K × MTree K)) (enc x) (.mk []))
      (enc x) = some (unwind enc []) := by
    rw [lookupA_upsert_self]
    rfl
  obtain ⟨d', hok, L, hlast, hlook⟩ := btLoop_unwind enc rest _ x [] hl0
  have hbt : btLoop enc [] none (x :: rest) = .ok d' := by
    simp only [btLoop]
    exact hok
  have hrevne : (x :: rest).reverse ≠ [] := by simp
  obtain ⟨h0, t0, hrev⟩ := List.exists_cons_of_ne_nil hrevne
  have hhead : h0 = L := by
    have h1 : (x :: rest).reverse.head? = some h0 := by rw [hrev]; rfl
    rw [List.head?_reverse] at h1
    rw [hlast] at h1
    exact (Option.some.inj h1).symm
  have htail : (x :: rest).reverse.tail = t0 := by rw [hrev]; rfl
  simp only [backtrackPath, hbt, hlast]
  rw [htail] at hlook
  simp only [hlook]
  rw [hrev, hhead]
  simp [unwind, MTree.entries]

/-- Success characterization of the rollout loop at depth >= 2: the loop
never fails, consumes `depth - 1` chooser calls per rollout, collects one
leaf evaluation per rollout (each rollout restarting from `st` with the
advanced counter), leaves the leaked `path` at the last rollout's path,
and modifies no tree key other than the initial move's. -/
theorem stochRolls_ok {B F M K : Type} [DecidableEq K] (g : Game B F M K)
    (chooser : Nat → List M → M) (depth : Nat) (imKey : K) (st : Bool × B × F)
    (hd : 2 ≤ depth) :
    ∀ (j ctr : Nat) (po : Option (List M)) (vals : List ℤ)
      (tree : List (K × MTree K)) (sub : MTree K),
      lookupA tree imKey = some sub →
      ∃ (tree' : List (K × MTree K)) (sub' : MTree K),
        stochRolls g chooser depth imKey st j ctr po vals tree
          = .ok (ctr + j * (depth - 1),
              (if j = 0 then po else some ((rollout g chooser (depth - 1)
                  (ctr + (j - 1) * (depth - 1)) st.1 st.2.1 st.2.2 []).1)),
              vals ++ (List.range j).map (fun jj =>
                (rollout g chooser (depth - 1) (ctr + jj * (depth - 1))
                  st.1 st.2.1 st.2.2 []).2.1),
              tree')
        ∧ lookupA tree' imKey = some sub'
        ∧ (∀ k', k' ≠ imKey → lookupA tree' k' = lookupA tree k') := by
  intro j
  induction j with
  | zero =>
      intro ctr po vals tree sub hsub
      refine ⟨tree, sub, ?_, hsub, fun _ _ => rfl⟩
      simp [stochRolls]
  | succ j ih =>
      intro ctr po vals tree sub hsub
      have hdne : ¬ (depth = 0) := by omega
      have hpne : (rollout g chooser (depth - 1) ctr st.1 st.2.1 st.2.2 []).1 ≠ [] := by
        intro h
        have := rollout_path_len g chooser (depth - 1) ctr st.1 st.2.1 st.2.2 []
        rw [h] at this
        simp at this
        omega
      have hbp := backtrackPath_unwind g.encode _ hpne
      have hctr := rollout_ctr g chooser (depth - 1) ctr st.1 st.2.1 st.2.2 []
      obtain ⟨tree', sub', heq, hself, hothers⟩ := ih
        ((rollout g chooser (depth - 1) ctr st.1 st.2.1 st.2.2 []).2.2)
        (some ((rollout g chooser (depth - 1) ctr st.1 st.2.1 st.2.2 []).1))
        (vals ++ [(rollout g chooser (depth - 1) ctr st.1 st.2.1 st.2.2 []).2.1])
        (upsert tree imKey (.mk (dictUpdate sub.entries
          ((unwind g.encode (rollout g chooser (depth - 1) ctr
            st.1 st.2.1 st.2.2 []).1.reverse).entries))))
        (.mk (dictUpdate sub.entries
          ((unwind g.encode (rollout g chooser (depth - 1) ctr
            st.1 st.2.1 st.2.2 []).1.reverse).entries)))
        (lookupA_upsert_self _ _ _)
      refine ⟨tree', sub', ?_, hself, ?_⟩
      · have hstep : stochRolls g chooser depth imKey st (j + 1) ctr po vals tree
            = stochRolls g chooser depth imKey st j
                ((rollout g chooser (depth - 1) ctr st.1 st.2.1 st.2.2 []).2.2)
                (some ((rollout g chooser (depth - 1) ctr st.1 st.2.1 st.2.2 []).1))
                (vals ++ [(rollout g chooser (depth - 1) ctr st.1 st.2.1 st.2.2 []).2.1])
                (upsert tree imKey (.mk (dictUpdate sub.entries
                  ((unwind g.encode (rollout g chooser (depth - 1) ctr
                    st.1 st.2.1 st.2.2 []).1.reverse).entries)))) := by
          simp only [stochRolls, hdne, if_false, hbp, hsub]
        rw [hstep, heq, hctr]
        have hctreq : ctr + (depth - 1) + j * (depth - 1) = ctr + (j + 1) * (depth - 1) := by
          ring
        have hpatheq : (if j = 0 then
              some ((rollout g chooser (depth - 1) ctr st.1 st.2.1 st.2.2 []).1)
            else some ((rollout g chooser (depth - 1)
              (ctr + (depth - 1) + (j - 1) * (depth - 1)) st.1 st.2.1 st.2.2 []).1))
            = some ((rollout g chooser (depth - 1)
                (ctr + (j + 1 - 1) * (depth - 1)) st.1 st.2.1 st.2.2 []).1) := by
          cases j with
          | zero => simp
          | succ jj =>
              simp only [Nat.succ_ne_zero, if_false, Nat.add_sub_cancel]
              congr 3
              ring
        have hvalseq : (vals ++ [(rollout g chooser (depth - 1) ctr
              st.1 st.2.1 st.2.2 []).2.1])
            ++ (List.range j).map (fun jj =>
                (rollout g chooser (depth - 1)
                  (ctr + (depth - 1) + jj * (depth - 1)) st.1 st.2.1 st.2.2 []).2.1)
            = vals ++ (List.range (j + 1)).map (fun jj =>
                (rollout g chooser (depth - 1) (ctr + jj * (depth - 1))
                  st.1 st.2.1 st.2.2 []).2.1) := by
          rw [List.range_succ_eq_map, List.map_cons, List.map_map]
          simp only [Nat.zero_mul, Nat.add_zero, List.append_assoc, List.singleton_append]
          congr 2
          apply List.map_congr_left
          intro jj _
          have harg : ctr + (depth - 1) + jj * (depth - 1)
              = ctr + (jj + 1) * (depth - 1) := by
            ring
          simp only [Function.comp_apply, Nat.succ_eq_add_one, harg]
        simp only [Nat.succ_ne_zero, if_false]
        rw [hctreq, hpatheq, hvalseq]
      · intro k' hk'
        rw [hothers k' hk', lookupA_upsert_other _ _ _ _ (fun h => hk' h.symm)]

/-- Success characterization of the per-move loop at depth >= 2 and
breadth >= 1: one path and one average are appended per generated move;
the i-th appended average is the sum of that move's `breadth` rollout
leaf evaluations divided by their number, and the i-th appended path
starts with the i-th move. -/
theorem stochMoveLoop_ok {B F M K : Type} [DecidableEq K] (g : Game B F M K)
    (chooser : Nat → List M → M) (side : Bool) (board : B) (flags : F)
    (depth breadth : Nat) (hd : 2 ≤ depth) (hb : 0 < breadth) :
    ∀ (ms : List M) (ctr : Nat) (po : Option (List M)) (mvl : List (List M))
      (avgs : List ℚ) (tree : List (K × MTree K)),
      ∃ ctr' po' mvl2 avgs2 tree',
        stochMoveLoop g chooser side board flags depth breadth ms ctr po mvl avgs tree
          = .ok (ctr', po', mvl ++ mvl2, avgs ++ avgs2, tree')
        ∧ mvl2.length = ms.length ∧ avgs2.length = ms.length
        ∧ (∀ i im, ms.get? i = some im →
            ∃ (ctr0 : Nat) (vals : List ℤ) (p : List M),
              vals = (List.range breadth).map (fun jj =>
                (rollout g chooser (depth - 1) (ctr0 + jj * (depth - 1))
                  (g.makeMove side board im flags).1
                  (g.makeMove side board im flags).2.1
                  (g.makeMove side board im flags).2.2 []).2.1)
              ∧ avgs2.get? i = some (((vals.foldl (· + ·) 0 : ℤ) : ℚ) / (vals.length : ℚ))
              ∧ vals.length = breadth
              ∧ mvl2.get? i = some (im :: p)) := by
  intro ms
  induction ms with
  | nil =>
      intro ctr po mvl avgs tree
      refine ⟨ctr, po, [], [], tree, by simp [stochMoveLoop], rfl, rfl, ?_⟩
      intro i im h
      simp at h
  | cons im rest ih =>
      intro ctr po mvl avgs tree
      obtain ⟨tree1', sub', heqR, hselfR, hothersR⟩ :=
        stochRolls_ok g chooser depth (g.encode im)
          (g.makeMove side board im flags) hd breadth ctr po []
          (upsert tree (g.encode im) (.mk [])) (.mk [])
          (lookupA_upsert_self _ _ _)
      have hbne : ¬ (breadth = 0) := Nat.pos_iff_ne_zero.mp hb
      set vals := (List.range breadth).map (fun jj =>
        (rollout g chooser (depth - 1) (ctr + jj * (depth - 1))
          (g.makeMove side board im flags).1
          (g.makeMove side board im flags).2.1
          (g.makeMove side board im flags).2.2 []).2.1) with hvals
      have hvlen : vals.length = breadth := by
        rw [hvals]; simp
      have hvne : ¬ (vals.length = 0) := by rw [hvlen]; exact hbne
      set p0 := (rollout g chooser (depth - 1) (ctr + (breadth - 1) * (depth - 1))
        (g.makeMove side board im flags).1
        (g.makeMove side board im flags).2.1
        (g.makeMove side board im flags).2.2 []).1 with hp0
      have hstep : stochMoveLoop g chooser side board flags depth breadth
          (im :: rest) ctr po mvl avgs tree
          = stochMoveLoop g chooser side board flags depth breadth rest
              (ctr + breadth * (depth - 1)) (some (im :: p0)) (mvl ++ [im :: p0])
              (avgs ++ [((vals.foldl (· + ·) 0 : ℤ) : ℚ) / (vals.length : ℚ)]) tree1' := by
        simp only [stochMoveLoop, heqR, hbne, if_false, hvne, List.nil_append]
      obtain ⟨ctr', po', mvl2, avgs2, tree', heq, hlm, hla, hpt⟩ := ih
        (ctr + breadth * (depth - 1)) (some (im :: p0)) (mvl ++ [im :: p0])
        (avgs ++ [((vals.foldl (· + ·) 0 : ℤ) : ℚ) / (vals.length : ℚ)]) tree1'
      refine ⟨ctr', po', (im :: p0) :: mvl2,
        (((vals.foldl (· + ·) 0 : ℤ) : ℚ) / (vals.length : ℚ)) :: avgs2, tree', ?_, ?_, ?_, ?_⟩
      · rw [hstep, heq]
        simp
      · simp [hlm]
      · simp [hla]
      · intro i im' h
        cases i with
        | zero =>
            simp only [List.get?_cons_zero, Option.some.injEq] at h
            subst h
            exact ⟨ctr, vals, p0, hvals, by simp, hvlen, by simp⟩
        | succ i =>
            simp only [List.get?_cons_succ] at h ⊢
            exact hpt i im' h

/-- The value tracked by the minimum scan is the minimum of the running
value and the list minimum. -/
theorem minScanGo_fst :
    ∀ (l : List ℚ) (i : Nat) (mn : WithTop ℚ) (mi : Nat),
      (minScanGo l i mn mi).1 = min mn l.minimum := by
  intro l
  induction l with
  | nil => intro i mn mi; simp [minScanGo, List.minimum_nil]
  | cons q rest ih =>
      intro i mn mi
      rw [List.minimum_cons]
      by_cases h : (q : WithTop ℚ) < mn
      · simp only [minScanGo, h, if_true]
        rw [ih]
        exact (min_eq_right (le_of_lt (lt_of_le_of_lt (min_le_left _ _) h))).symm
      · simp only [minScanGo, h, if_false]
        rw [ih, ← min_assoc, min_eq_left (not_lt.mp h)]

/-- If no element of the list beats the running minimum, the scan is a
no-op. -/
theorem minScanGo_stuck :
    ∀ (l : List ℚ) (i : Nat) (mn : WithTop ℚ) (mi : Nat),
      (∀ q ∈ l, ¬ ((q : WithTop ℚ) < mn)) → minScanGo l i mn mi = (mn, mi) := by
  intro l
  induction l with
  | nil => intro i mn mi _; rfl
  | cons q rest ih =>
      intro i mn mi h
      have hq : ¬ ((q : WithTop ℚ) < mn) := h q (by simp)
      simp only [minScanGo, hq, if_false]
      exact ih (i + 1) mn mi (fun q' hq' => h q' (by simp [hq']))

/-- If something in the list beats the running minimum, the scan returns
the list minimum together with the first index attaining it (offset by
the running index). -/
theorem minScanGo_first :
    ∀ (l : List ℚ) (i : Nat) (mn : WithTop ℚ) (mi : Nat),
      l.minimum < mn →
      ∃ j q, (minScanGo l i mn mi).2 = i + j
        ∧ l.get? j = some q ∧ (q : WithTop ℚ) = l.minimum
        ∧ (∀ k qk, k < j → l.get? k = some qk → l.minimum < (qk : WithTop ℚ))
        ∧ (minScanGo l i mn mi).1 = l.minimum := by
  intro l
  induction l with
  | nil =>
      intro i mn mi h
      rw [List.minimum_nil] at h
      exact absurd h not_top_lt
  | cons q rest ih =>
      intro i mn mi h
      have hmc : (q :: rest).minimum = min (q : WithTop ℚ) rest.minimum :=
        List.minimum_cons q rest
      by_cases hqlt : (q : WithTop ℚ) < mn
      · simp only [minScanGo, hqlt, if_true]
        by_cases hqm : (q : WithTop ℚ) ≤ rest.minimum
        · have hmin : (q :: rest).minimum = (q : WithTop ℚ) := by
            rw [hmc, min_eq_left hqm]
          have hstuck := minScanGo_stuck rest (i + 1) (q : WithTop ℚ) i
            (fun q' hq' => not_lt.mpr (le_trans hqm (List.minimum_le_of_mem' hq')))
          refine ⟨0, q, ?_, rfl, hmin.symm, ?_, ?_⟩
          · rw [hstuck]; simp
          · intro k qk hk _; omega
          · rw [hstuck, hmin]
        · have hrq : rest.minimum < (q : WithTop ℚ) := not_le.mp hqm
          obtain ⟨j, q', hidx, hget, hval, hearlier, hfst⟩ := ih (i + 1) (q : WithTop ℚ) i hrq
          have hmin : (q :: rest).minimum = rest.minimum := by
            rw [hmc, min_eq_right (le_of_lt hrq)]
          refine ⟨j + 1, q', ?_, by simpa using hget, by rw [hval, hmin], ?_, by rw [hfst, hmin]⟩
          · rw [hidx]; omega
          · intro k qk hk hgk
            cases k with
            | zero =>
                simp only [List.get?_cons_zero, Option.some.injEq] at hgk
                rw [hmin, ← hgk]
                exact hrq
            | succ k =>
                simp only [List.get?_cons_succ] at hgk
                rw [hmin]
                exact hearlier k qk (by omega) hgk
      · simp only [minScanGo, hqlt, if_false]
        have hrlt : rest.minimum < mn := by
          by_contra hcon
          push_neg at hcon
          rw [hmc] at h
          exact absurd h (not_lt.mpr (le_min (not_lt.mp hqlt) hcon))
        obtain ⟨j, q', hidx, hget, hval, hearlier, hfst⟩ := ih (i + 1) mn mi hrlt
        have hqge : rest.minimum < (q : WithTop ℚ) :=
          lt_of_lt_of_le hrlt (not_lt.mp hqlt)
        have hmin : (q :: rest).minimum = rest.minimum := by
          rw [hmc, min_eq_right (le_of_lt hqge)]
        refine ⟨j + 1, q', ?_, by simpa using hget, by rw [hval, hmin], ?_, by rw [hfst, hmin]⟩
        · rw [hidx]; omega
        · intro k qk hk hgk
          cases k with
          | zero =>
              simp only [List.get?_cons_zero, Option.some.injEq] at hgk
              rw [hmin, ← hgk]
              exact hqge
          | succ k =>
              simp only [List.get?_cons_succ] at hgk
              rw [hmin]
              exact hearlier k qk (by omega) hgk

/-- C7: whenever `stochastic` returns a result, each first move's
estimated value is the arithmetic mean (sum divided by sample count) of
its `breadth` rollout leaf evaluations, and the returned value is the
minimum of these means, paired with the recorded path of the first
generated move attaining that minimum — for every side, by the same
minimizing formula (the selection never branches on the side argument). -/
theorem claim7_stochastic_selection {B F M K : Type} [DecidableEq K] (g : Game B F M K)
    (chooser : Nat → List M → M) (side : Bool) (board : B) (flags : F)
    (depth breadth : Nat) (hd : 2 ≤ depth) (hb : 0 < breadth)
    (v : WithTop ℚ) (p : List M) (t : MTree K)
    (hok : stochastic g chooser side board flags depth breadth = .ok (v, p, t)) :
    ∃ ctr' po' mvl avgs tree,
      stochMoveLoop g chooser side board flags depth breadth
          (g.generateMoves side board flags) 0 none [] [] []
        = .ok (ctr', po', mvl, avgs, tree)
      ∧ v = avgs.minimum
      ∧ (∃ idx q, avgs.get? idx = some q ∧ (q : WithTop ℚ) = avgs.minimum
          ∧ (∀ k qk, k < idx → avgs.get? k = some qk → avgs.minimum < (qk : WithTop ℚ))
          ∧ mvl.get? idx = some p)
      ∧ avgs.length = (g.generateMoves side board flags).length
      ∧ (∀ i im, (g.generateMoves side board flags).get? i = some im →
          ∃ (ctr0 : Nat) (vals : List ℤ) (pl : List M),
            vals = (List.range breadth).map (fun jj =>
              (rollout g chooser (depth - 1) (ctr0 + jj * (depth - 1))
                (g.makeMove side board im flags).1
                (g.makeMove side board im flags).2.1
                (g.makeMove side board im flags).2.2 []).2.1)
            ∧ avgs.get? i = some (((vals.foldl (· + ·) 0 : ℤ) : ℚ) / (vals.length : ℚ))
            ∧ vals.length = breadth
            ∧ mvl.get? i = some (im :: pl)) := by
  obtain ⟨ctr', po', mvl2, avgs2, tree', heq, hlm, hla, hpt⟩ :=
    stochMoveLoop_ok g chooser side board flags depth breadth hd hb
      (g.generateMoves side board flags) 0 none [] [] []
  simp only [List.nil_append] at heq
  simp only [stochastic, heq] at hok
  rcases hc : mvl2.get? (minScan avgs2).2 with _ | p'
  · rw [hc] at hok
    exact absurd hok (by simp)
  · rw [hc] at hok
    have hinj := Except.ok.inj hok
    have hv : v = (minScan avgs2).1 := (congrArg Prod.fst hinj).symm
    have hp : p = p' := by
      have := congrArg (fun x => x.2.1) hinj
      simpa using this.symm
    have havne : avgs2 ≠ [] := by
      intro hnil
      have : mvl2 = [] := by
        cases mvl2 with
        | nil => rfl
        | cons a l =>
            rw [hnil] at hla
            simp at hla
            rw [← hla] at hlm
            simp at hlm
      rw [this] at hc
      simp at hc
    have hlt : avgs2.minimum < ⊤ := by
      rcases List.exists_cons_of_ne_nil havne with ⟨a, l, rfl⟩
      rw [List.minimum_cons]
      exact lt_of_le_of_lt (min_le_left _ _) (WithTop.coe_lt_top a)
    obtain ⟨j, q, hidx, hget, hval, hearlier, hfst⟩ :=
      minScanGo_first avgs2 0 ⊤ 0 hlt
    have hidx' : (minScan avgs2).2 = j := by
      rw [minScan, hidx]
      omega
    refine ⟨ctr', po', mvl2, avgs2, tree', heq, ?_, ⟨j, q, hget, hval, hearlier, ?_⟩, hla, hpt⟩
    · rw [hv, minScan, hfst]
    · rw [← hidx', hc, hp]

/-- Witness for C7 at a concrete input: `gS` at depth 2, breadth 2 with
the index chooser returns the mean 5/2 and the first move's path. -/
theorem claim7_witness :
    2 ≤ 2 ∧ 0 < 2
    ∧ stochastic gS chooserIdx false 0 () 2 2
        = .ok (((5 : ℚ) / 2 : ℚ), [0, 1], .mk [(0, .mk [(0, .mk []), (1, .mk [])])])
    ∧ (∃ ctr' po' mvl avgs tree,
        stochMoveLoop gS chooserIdx false 0 () 2 2
            (gS.generateMoves false 0 ()) 0 none [] [] []
          = .ok (ctr', po', mvl, avgs, tree)
        ∧ ((((5 : ℚ) / 2 : ℚ)) : WithTop ℚ) = avgs.minimum
        ∧ (∃ idx q, avgs.get? idx = some q ∧ (q : WithTop ℚ) = avgs.minimum
            ∧ (∀ k qk, k < idx → avgs.get? k = some qk → avgs.minimum < (qk : WithTop ℚ))
            ∧ mvl.get? idx = some [0, 1])
        ∧ avgs.length = (gS.generateMoves false 0 ()).length
        ∧ (∀ i im, (gS.generateMoves false 0 ()).get? i = some im →
            ∃ (ctr0 : Nat) (vals : List ℤ) (pl : List Nat),
              vals = (List.range 2).map (fun jj =>
                (rollout gS chooserIdx (2 - 1) (ctr0 + jj * (2 - 1))
                  (gS.makeMove false 0 im ()).1
                  (gS.makeMove false 0 im ()).2.1
                  (gS.makeMove false 0 im ()).2.2 []).2.1)
              ∧ avgs.get? i = some (((vals.foldl (· + ·) 0 : ℤ) : ℚ) / (vals.length : ℚ))
              ∧ vals.length = 2
              ∧ mvl.get? i = some (im :: pl))) :=
  ⟨le_refl 2, by decide, rfl,
    claim7_stochastic_selection gS chooserIdx false 0 () 2 2 (le_refl 2) (by decide)
      ((5 : ℚ) / 2 : ℚ) [0, 1] (.mk [(0, .mk [(0, .mk []), (1, .mk [])])]) rfl⟩

/-- With a counter-independent chooser, rollouts do not depend on the
counter. -/
theorem rollout_chfree {B F M K : Type} (g : Game B F M K)
    (chooser : Nat → List M → M) (hch : ∀ n l, chooser n l = chooser 0 l) :
    ∀ (k c1 c2 : Nat) (s : Bool) (b : B) (f : F) (p : List M),
      (rollout g chooser k c1 s b f p).1 = (rollout g chooser k c2 s b f p).1
      ∧ (rollout g chooser k c1 s b f p).2.1 = (rollout g chooser k c2 s b f p).2.1 := by
  intro k
  induction k with
  | zero => intro c1 c2 s b f p; exact ⟨rfl, rfl⟩
  | succ k ih =>
      intro c1 c2 s b f p
      simp only [rollout]
      rw [hch c1 (g.generateMoves s b f), hch c2 (g.generateMoves s b f)]
      exact ih (c1 + 1) (c2 + 1) _ _ _ _

/-- Updating a dict with a single-entry dict is a plain upsert. -/
theorem dictUpdate_singleton {K : Type} [DecidableEq K]
    (d : List (K × MTree K)) (k : K) (t : MTree K) :
    dictUpdate d [(k, t)] = upsert d k t := rfl

/-- With a counter-independent chooser, every rollout of the breadth loop
produces the same chain, so the sub-tree recorded under the initial
move's key stabilizes at the single chain of that one rollout path. -/
theorem stochRolls_chain {B F M K : Type} [DecidableEq K] (g : Game B F M K)
    (chooser : Nat → List M → M) (hch : ∀ n l, chooser n l = chooser 0 l)
    (depth : Nat) (imKey : K) (st : Bool × B × F) (hd : 2 ≤ depth) :
    ∀ (j ctr : Nat) (po : Option (List M)) (vals : List ℤ)
      (tree : List (K × MTree K)),
      (lookupA tree imKey = some (.mk [])
        ∨ lookupA tree imKey = some (.mk ((unwind g.encode
            ((rollout g chooser (depth - 1) 0 st.1 st.2.1 st.2.2 []).1).reverse).entries))) →
      ∃ ctrx pox valsx tree',
        stochRolls g chooser depth imKey st j ctr po vals tree
          = .ok (ctrx, pox, valsx, tree')
        ∧ (j = 0 → lookupA tree' imKey = lookupA tree imKey)
        ∧ (j ≠ 0 → lookupA tree' imKey
            = some (.mk ((unwind g.encode
                ((rollout g chooser (depth - 1) 0 st.1 st.2.1 st.2.2 []).1).reverse).entries)))
        ∧ (∀ k', k' ≠ imKey → lookupA tree' k' = lookupA tree k') := by
  intro j
  induction j with
  | zero =>
      intro ctr po vals tree hsub
      exact ⟨ctr, po, vals, tree, by simp [stochRolls], fun _ => rfl,
        fun h => absurd rfl h, fun _ _ => rfl⟩
  | succ j ih =>
      intro ctr po vals tree hsub
      have hdne : ¬ (depth = 0) := by omega
      have hpeq : (rollout g chooser (depth - 1) ctr st.1 st.2.1 st.2.2 []).1
          = (rollout g chooser (depth - 1) 0 st.1 st.2.1 st.2.2 []).1 :=
        (rollout_chfree g chooser hch (depth - 1) ctr 0 st.1 st.2.1 st.2.2 []).1
      have hpne : (rollout g chooser (depth - 1) 0 st.1 st.2.1 st.2.2 []).1 ≠ [] := by
        intro h
        have := rollout_path_len g chooser (depth - 1) 0 st.1 st.2.1 st.2.2 []
        rw [h] at this
        simp at this
        omega
      have hbp := backtrackPath_unwind g.encode _ hpne
      obtain ⟨L, t0, hrev⟩ := List.exists_cons_of_ne_nil
        (show ((rollout g chooser (depth - 1) 0 st.1 st.2.1 st.2.2 []).1).reverse ≠ []
          by simpa using hpne)
      have hCE : (unwind g.encode
          ((rollout g chooser (depth - 1) 0 st.1 st.2.1 st.2.2 []).1).reverse).entries
          = [(g.encode L, unwind g.encode t0)] := by
        rw [hrev]
        rfl
      have hupd : ∀ sub : MTree K, (sub = .mk [] ∨ sub = .mk ((unwind g.encode
            ((rollout g chooser (depth - 1) 0 st.1 st.2.1 st.2.2 []).1).reverse).entries)) →
          dictUpdate sub.entries ((unwind g.encode
            ((rollout g chooser (depth - 1) 0 st.1 st.2.1 st.2.2 []).1).reverse).entries)
          = (unwind g.encode
            ((rollout g chooser (depth - 1) 0 st.1 st.2.1 st.2.2 []).1).reverse).entries := by
        intro sub hcase
        rcases hcase with rfl | rfl
        · rw [hCE, dictUpdate_singleton]
          rfl
        · rw [hCE, dictUpdate_singleton]
          simp [MTree.entries, upsert]
      have hsub' : ∃ sub : MTree K, lookupA tree imKey = some sub
          ∧ (sub = .mk [] ∨ sub = .mk ((unwind g.encode
              ((rollout g chooser (depth - 1) 0 st.1 st.2.1 st.2.2 []).1).reverse).entries)) := by
        rcases hsub with h | h
        · exact ⟨.mk [], h, Or.inl rfl⟩
        · exact ⟨_, h, Or.inr rfl⟩
      obtain ⟨sub, hlk, hcase⟩ := hsub'
      have hstep : stochRolls g chooser depth imKey st (j + 1) ctr po vals tree
          = stochRolls g chooser depth imKey st j
              ((rollout g chooser (depth - 1) ctr st.1 st.2.1 st.2.2 []).2.2)
              (some ((rollout g chooser (depth - 1) ctr st.1 st.2.1 st.2.2 []).1))
              (vals ++ [(rollout g chooser (depth - 1) ctr st.1 st.2.1 st.2.2 []).2.1])
              (upsert tree imKey (.mk ((unwind g.encode
                ((rollout g chooser (depth - 1) 0 st.1 st.2.1 st.2.2 []).1).reverse).entries))) := by
        simp only [stochRolls, hdne, if_false, hpeq, hbp, hlk, hupd sub hcase]
      obtain ⟨ctrx, pox, valsx, tree', heq, _, hnzero, hothers⟩ := ih
        ((rollout g chooser (depth - 1) ctr st.1 st.2.1 st.2.2 []).2.2)
        (some ((rollout g chooser (depth - 1) ctr st.1 st.2.1 st.2.2 []).1))
        (vals ++ [(rollout g chooser (depth - 1) ctr st.1 st.2.1 st.2.2 []).2.1])
        (upsert tree imKey (.mk ((unwind g.encode
          ((rollout g chooser (depth - 1) 0 st.1 st.2.1 st.2.2 []).1).reverse).entries)))
        (Or.inr (lookupA_upsert_self _ _ _))
      have hzcase : lookupA tree' imKey = some (.mk ((unwind g.encode
          ((rollout g chooser (depth - 1) 0 st.1 st.2.1 st.2.2 []).1).reverse).entries)) := by
        cases j with
        | zero =>
            simp only [stochRolls] at heq
            have h4 := congrArg
              (fun x : Nat × Option (List M) × List ℤ × List (K × MTree K) => x.2.2.2)
              (Except.ok.inj heq)
            simp only at h4
            rw [← h4]
            exact lookupA_upsert_self _ _ _
        | succ jj => exact hnzero (Nat.succ_ne_zero jj)
      refine ⟨ctrx, pox, valsx, tree', by rw [hstep]; exact heq,
        fun h => absurd h (Nat.succ_ne_zero j), fun _ => hzcase, ?_⟩
      intro k' hk'
      rw [hothers k' hk', lookupA_upsert_other _ _ _ _ (fun h => hk' h.symm)]

/-- With a counter-independent chooser and distinct root move keys, the
final tree of the per-move loop records, under every first move, exactly
the single chain of that move's (unique) rollout path. -/
theorem stochMoveLoop_chain {B F M K : Type} [DecidableEq K] (g : Game B F M K)
    (chooser : Nat → List M → M) (hch : ∀ n l, chooser n l = chooser 0 l)
    (side : Bool) (board : B) (flags : F) (depth breadth : Nat)
    (hd : 2 ≤ depth) (hb : 0 < breadth) :
    ∀ (ms : List M) (ctr : Nat) (po : Option (List M)) (mvl : List (List M))
      (avgs : List ℚ) (tree : List (K × MTree K)),
      (ms.map g.encode).Nodup →
      ∃ ctr' po' mvl' avgs' tree',
        stochMoveLoop g chooser side board flags depth breadth ms ctr po mvl avgs tree
          = .ok (ctr', po', mvl', avgs', tree')
        ∧ (∀ im ∈ ms, lookupA tree' (g.encode im)
            = some (.mk ((unwind g.encode ((rollout g chooser (depth - 1) 0
                (g.makeMove side board im flags).1
                (g.makeMove side board im flags).2.1
                (g.makeMove side board im flags).2.2 []).1).reverse).entries)))
        ∧ (∀ k', k' ∉ ms.map g.encode → lookupA tree' k' = lookupA tree k') := by
  intro ms
  induction ms with
  | nil =>
      intro ctr po mvl avgs tree _
      exact ⟨ctr, po, mvl, avgs, tree, by simp [stochMoveLoop], by simp, fun _ _ => rfl⟩
  | cons im rest ih =>
      intro ctr po mvl avgs tree hnd
      have hhead : g.encode im ∉ rest.map g.encode :=
        (List.nodup_cons.mp (by simpa using hnd)).1
      have hnd' : (rest.map g.encode).Nodup := (List.nodup_cons.mp (by simpa using hnd)).2
      obtain ⟨tree1', sub', heqR, hselfR, hothersR⟩ :=
        stochRolls_ok g chooser depth (g.encode im)
          (g.makeMove side board im flags) hd breadth ctr po []
          (upsert tree (g.encode im) (.mk [])) (.mk [])
          (lookupA_upsert_self _ _ _)
      obtain ⟨ctrx, pox, valsx, tree1x, heqC, _, hnz, _⟩ :=
        stochRolls_chain g chooser hch depth (g.encode im)
          (g.makeMove side board im flags) hd breadth ctr po []
          (upsert tree (g.encode im) (.mk []))
          (Or.inl (lookupA_upsert_self _ _ _))
      have htx : tree1x = tree1' := by
        rw [heqR] at heqC
        have := congrArg
          (fun x : Except PyErr (Nat × Option (List M) × List ℤ × List (K × MTree K)) =>
            match x with
            | .ok y => y.2.2.2
            | .error _ => []) heqC
        simpa using this.symm
      have hchain1 : lookupA tree1' (g.encode im)
          = some (.mk ((unwind g.encode ((rollout g chooser (depth - 1) 0
              (g.makeMove side board im flags).1
              (g.makeMove side board im flags).2.1
              (g.makeMove side board im flags).2.2 []).1).reverse).entries)) := by
        rw [← htx]
        exact hnz (Nat.pos_iff_ne_zero.mp hb)
      have hbne : ¬ (breadth = 0) := Nat.pos_iff_ne_zero.mp hb
      set vals := (List.range breadth).map (fun jj =>
        (rollout g chooser (depth - 1) (ctr + jj * (depth - 1))
          (g.makeMove side board im flags).1
          (g.makeMove side board im flags).2.1
          (g.makeMove side board im flags).2.2 []).2.1) with hvals
      have hvne : ¬ (vals.length = 0) := by rw [hvals]; simp [hbne]
      set p0 := (rollout g chooser (depth - 1) (ctr + (breadth - 1) * (depth - 1))
        (g.makeMove side board im flags).1
        (g.makeMove side board im flags).2.1
        (g.makeMove side board im flags).2.2 []).1 with hp0
      have hstep : stochMoveLoop g chooser side board flags depth breadth
          (im :: rest) ctr po mvl avgs tree
          = stochMoveLoop g chooser side board flags depth breadth rest
              (ctr + breadth * (depth - 1)) (some (im :: p0)) (mvl ++ [im :: p0])
              (avgs ++ [((vals.foldl (· + ·) 0 : ℤ) : ℚ) / (vals.length : ℚ)]) tree1' := by
        simp only [stochMoveLoop, heqR, hbne, if_false, hvne, List.nil_append]
      obtain ⟨ctr', po', mvl', avgs', tree', heq, hmem, hkeys⟩ := ih
        (ctr + breadth * (depth - 1)) (some (im :: p0)) (mvl ++ [im :: p0])
        (avgs ++ [((vals.foldl (· + ·) 0 : ℤ) : ℚ) / (vals.length : ℚ)]) tree1' hnd'
      refine ⟨ctr', po', mvl', avgs', tree', by rw [hstep]; exact heq, ?_, ?_⟩
      · intro im0 him0
        rcases List.mem_cons.mp him0 with rfl | him0
        · rw [hkeys (g.encode im0) hhead]
          exact hchain1
        · exact hmem im0 him0
      · intro k' hk'
        have hk1 : k' ∉ rest.map g.encode := by
          intro h
          exact hk' (by simp [h])
        have hk2 : k' ≠ g.encode im := by
          intro h
          exact hk' (by simp [h])
        rw [hkeys k' hk1, hothersR k' hk2,
          lookupA_upsert_other _ _ _ _ (fun h => hk2 h.symm)]

/-- Rebuilding a tree from its entries is the identity. -/
theorem MTree.mk_entries {K : Type} (t : MTree K) : MTree.mk t.entries = t := by
  cases t
  rfl

/-- C9 counterexample: with breadth 2 and a chooser that varies between
calls (the n-th call picks index n), the sub-tree recorded under the
single first move of `gS` contains the chains of BOTH rollouts — two
children — and is not the unwinding of one rollout's move sequence into
nested single-child nodes. -/
theorem claim9_counterexample :
    stochastic gS chooserIdx false 0 () 2 2
      = .ok (((5 : ℚ) / 2 : ℚ), [0, 1], .mk [(0, .mk [(0, .mk []), (1, .mk [])])])
    ∧ (¬ ∃ q : List Nat,
        (MTree.mk [(0, .mk []), (1, .mk [])] : MTree Nat) = unwind gS.encode q) := by
  refine ⟨rfl, ?_⟩
  rintro ⟨q, hq⟩
  have hlen : ∀ (q : List Nat), (unwind gS.encode q).entries.length ≤ 1 := by
    intro q
    cases q <;> simp [unwind, MTree.entries]
  have h2 : (MTree.mk [(0, .mk []), (1, .mk [])] : MTree Nat).entries.length = 2 := rfl
  rw [hq] at h2
  have := hlen q
  omega

/-- C9 (amended): each rollout's move sequence is unwound into a
single-child chain and merged into the first move's sub-tree under the
key of the rollout's first step; rollouts sharing that key overwrite one
another.  In particular, with a chooser that does not vary between calls
(all `breadth` rollouts identical), the sub-tree recorded under every
first move is exactly the single-child chain of that move's one rollout
path. -/
theorem claim9_single_chain {B F M K : Type} [DecidableEq K] (g : Game B F M K)
    (chooser : Nat → List M → M) (side : Bool) (board : B) (flags : F)
    (depth breadth : Nat)
    (hch : ∀ n l, chooser n l = chooser 0 l) (hd : 2 ≤ depth) (hb : 0 < breadth)
    (hnd : ((g.generateMoves side board flags).map g.encode).Nodup) :
    ∃ ctr' po' mvl' avgs' tree',
      stochMoveLoop g chooser side board flags depth breadth
          (g.generateMoves side board flags) 0 none [] [] []
        = .ok (ctr', po', mvl', avgs', tree')
      ∧ (∀ im ∈ g.generateMoves side board flags,
          lookupA tree' (g.encode im)
            = some (unwind g.encode ((rollout g chooser (depth - 1) 0
                (g.makeMove side board im flags).1
                (g.makeMove side board im flags).2.1
                (g.makeMove side board im flags).2.2 []).1).reverse))
      ∧ (∀ (v : WithTop ℚ) (p : List M) (t : MTree K),
          stochastic g chooser side board flags depth breadth = .ok (v, p, t) →
          t = .mk tree') := by
  obtain ⟨ctr', po', mvl', avgs', tree', heq, hmem, hkeys⟩ :=
    stochMoveLoop_chain g chooser hch side board flags depth breadth hd hb
      (g.generateMoves side board flags) 0 none [] [] [] hnd
  refine ⟨ctr', po', mvl', avgs', tree', heq, ?_, ?_⟩
  · intro im him
    rw [hmem im him, MTree.mk_entries]
  · intro v p t hok
    simp only [stochastic, heq] at hok
    rcases hc : mvl'.get? (minScan avgs').2 with _ | p'
    · rw [hc] at hok
      exact absurd hok (by simp)
    · rw [hc] at hok
      have := congrArg (fun x => x.2.2) (Except.ok.inj hok)
      simpa using this.symm

/-- A chooser that ignores its call counter: always the first legal
move. -/
def chooserFirst : Nat → List Nat → Nat := fun _ l => l.getD 0 0

/-- Witness for the amended C9 at a concrete input. -/
theorem claim9_witness :
    (∀ (n : Nat) (l : List Nat), chooserFirst n l = chooserFirst 0 l)
    ∧ 2 ≤ 2 ∧ 0 < 2
    ∧ ((gS.generateMoves false 0 ()).map gS.encode).Nodup
    ∧ (∃ ctr' po' mvl' avgs' tree',
        stochMoveLoop gS chooserFirst false 0 () 2 2
            (gS.generateMoves false 0 ()) 0 none [] [] []
          = .ok (ctr', po', mvl', avgs', tree')
        ∧ (∀ im ∈ gS.generateMoves false 0 (),
            lookupA tree' (gS.encode im)
              = some (unwind gS.encode ((rollout gS chooserFirst (2 - 1) 0
                  (gS.makeMove false 0 im ()).1
                  (gS.makeMove false 0 im ()).2.1
                  (gS.makeMove false 0 im ()).2.2 []).1).reverse))
        ∧ (∀ (v : WithTop ℚ) (p : List Nat) (t : MTree Nat),
            stochastic gS chooserFirst false 0 () 2 2 = .ok (v, p, t) →
            t = .mk tree')) :=
  ⟨fun _ _ => rfl, le_refl 2, by decide, by decide,
    claim9_single_chain gS chooserFirst false 0 () 2 2 (fun _ _ => rfl)
      (le_refl 2) (by decide) (by decide)⟩
